import Mathlib

/-!
The program `gost`: simple statistics from the command line.

A shallow embedding of `src/gost.go` and the properties of its aggregation,
scanning and reporting code.

Modelling conventions.

* The aggregator is embedded twice.  In `sum`, `average`, `variance`,
  `medSorted`, `quantile`, ... a `[]float64` is a `List ℚ`: the finite values,
  with every `+`, `-`, `*`, `/` of the source taken in exact arithmetic.  In
  `Float64.sum`, `Float64.variance`, `Float64.medSorted`, ... it is a
  `List F64` and every operation is the IEEE 754 binary64 one (round to nearest,
  ties to even, overflow to infinity, gradual underflow).  Statements said to
  hold in exact arithmetic are about the first embedding; statements about what
  the float64 code computes are about the second.
* The scanner does no arithmetic, so it is embedded over an arbitrary value
  type.
* A Go run-time panic is a value of `Panic`; a function that can panic returns
  `Except Panic _`.  Slice indexing goes through `index`, which panics exactly
  when the (signed) index is outside `0 ≤ i < len`.
* Go's `int` division and remainder truncate toward zero: `Int.tdiv`, `Int.tmod`.
* Library functions are parameters: `parse` stands for
  `strconv.ParseFloat(text, 64)` (`none` when it returns an error) and `sqrt`
  for `math.Sqrt`.  A source is the list of words `bufio.ScanWords` yields.
* `sort.Float64s` is `List.insertionSort (· ≤ ·)`; on a linear order the
  ascending sort of a list is unique (`sort_unique`), so the algorithm chosen is
  not observable.
* Standard output is the list of things written to it, in order: a text written
  by `fmt.Printf`, or the table a `tabwriter.Writer` writes when it is flushed.
-/

namespace Gost

/-! ## Data model -/

/-- A Go run-time panic: the way every fatal error of the program ends the run. -/
inductive Panic where
  /-- Slice index `i` outside a slice of length `len`. -/
  | indexOutOfRange (i : Int) (len : Nat)
  /-- The value `panic(err)` is given when `os.Open(name)` fails. -/
  | openError (name : String)
  /-- The value `panic(msg)` is given for a string `msg`. -/
  | message (msg : String)
  deriving DecidableEq

/-- The command-line flags `-n` (`--no-header`), `--complete` and `--strict`. -/
structure Flags where
  fNoHead : Bool
  fComplete : Bool
  fStrict : Bool
  deriving DecidableEq

/-- An operand of a `%v` verb: a string, an `int` or a `float64`. -/
inductive Cell where
  | str (s : String)
  | int (n : Nat)
  | num (x : ℚ)
  deriving DecidableEq

/-- One write to standard output. -/
inductive Out where
  /-- Text written directly with `fmt.Printf`. -/
  | text (s : String)
  /-- The rows a `tabwriter.Writer` holds when it is flushed, a row being the
  operands of one `fmt.Fprintf(tw, format, ...)`. -/
  | table (rows : List (List Cell))
  deriving DecidableEq

/-- The state the scanner works on: the value sequence `*data` and what has
been written to standard output so far. -/
structure St (α : Type) where
  data : List α
  stdout : List Out

/-- What the run can observe outside the program: the positional arguments
`goopt.Args`, the files that can be opened (with the words they hold) and the
words on standard input. -/
structure Env where
  flags : Flags
  args : List String
  fs : String → Option (List String)
  stdin : List String

/-- The outcome of a run: what was written to standard output and the panic
that ended it, if any. -/
structure Run where
  stdout : List Out
  fatal : Option Panic

/-! ## Aggregator -/

/-- Slice indexing `data[i]` with a signed index. -/
def index {α : Type} (data : List α) (i : Int) : Except Panic α :=
  if i < 0 then .error (.indexOutOfRange i data.length)
  else
    match data[i.toNat]? with
    | some x => .ok x
    | none => .error (.indexOutOfRange i data.length)

/-- The Go function `len`, as a signed `int`. -/
def len {α : Type} (data : List α) : Int := (data.length : Int)

/-- The function `sort.Float64s`: `data` in ascending order. -/
def sortFloat64s (data : List ℚ) : List ℚ :=
  data.insertionSort (· ≤ ·)

def sum (data : List ℚ) : ℚ :=
  data.foldl (fun x r => x + r) 0

def average (data : List ℚ) : ℚ :=
  sum data / (data.length : ℚ)

def min (data : List ℚ) : Except Panic ℚ := do
  let x ← index data 0
  return data.foldl (fun x r => if x > r then r else x) x

def max (data : List ℚ) : Except Panic ℚ := do
  let x ← index data 0
  return data.foldl (fun x r => if x < r then r else x) x

/-- The function `variance`, in exact arithmetic (the float64 evaluation is
`Float64.variance`). -/
def variance (data : List ℚ) : ℚ :=
  let avg := average data
  data.foldl (fun x r => x + (r - avg) * (r - avg)) 0 / (data.length : ℚ)

def stddev (sqrt : ℚ → ℚ) (data : List ℚ) : ℚ :=
  sqrt (variance data)

def stderr (sqrt : ℚ → ℚ) (data : List ℚ) : ℚ :=
  stddev sqrt data / sqrt (data.length : ℚ)

/-- The function `medSorted`, in exact arithmetic (the float64 evaluation,
where the sum of the two central elements can overflow, is
`Float64.medSorted`). -/
def medSorted (data : List ℚ) : Except Panic ℚ :=
  if len data = 1 then
    index data 0
  else if (len data).tmod 2 = 1 then
    index data (((len data) - 1).tdiv 2)
  else do
    let a ← index data ((len data).tdiv 2 - 1)
    let b ← index data ((len data).tdiv 2)
    return (a + b) / 2

/-- The function `quantile`.  It sorts the caller's slice in place, so the
sorted slice is returned next to the three results.  The slice bound
`len(data)/2` is never negative, so it is the natural number `length / 2`, and
it never exceeds the length, so the two slice expressions cannot panic. -/
def quantile (data : List ℚ) : Except Panic ((ℚ × ℚ × ℚ) × List ℚ) := do
  let data := sortFloat64s data
  let halfL := data.take (data.length / 2)
  let halfH := data.drop (data.length / 2)
  let q1 ← medSorted halfL
  let med ← medSorted data
  let q3 ← medSorted halfH
  return ((q1, med, q3), data)

/-! ## Reporter -/

/-- The header row of the complete field set. -/
def headerComplete : List Cell :=
  [.str "N", .str "min", .str "q1", .str "med", .str "q3", .str "max", .str "sum",
   .str "avg", .str "stddev", .str "stderr"]

/-- The header row of the compact field set. -/
def headerCompact : List Cell :=
  [.str "N", .str "min", .str "max", .str "avg", .str "stddev", .str "stderr"]

/-- The function `dispData`: the rows written to the tab writer, which reach
standard output only at the final `tw.Flush()`. -/
def dispData (sqrt : ℚ → ℚ) (flags : Flags) (data : List ℚ) :
    Except Panic (List (List Cell)) := do
  let tw : List (List Cell) := []
  let tw := if !flags.fNoHead then
      (if flags.fComplete then tw ++ [headerComplete] else tw ++ [headerCompact])
    else tw
  let ((q1, med, q3), data) ← quantile data
  if flags.fComplete then
    let mn ← min data
    let mx ← max data
    return tw ++ [[.int data.length, .num mn, .num q1, .num med, .num q3, .num mx,
      .num (sum data), .num (average data), .num (stddev sqrt data),
      .num (stderr sqrt data)]]
  else
    let mn ← min data
    let mx ← max data
    return tw ++ [[.int data.length, .num mn, .num mx, .num (average data),
      .num (stddev sqrt data), .num (stderr sqrt data)]]

/-! ## Token scanner -/

/-- The text of the warning printed for a word that does not parse. -/
def warning (text : String) : Out :=
  .text ("warning: invalid input " ++ text ++ "\n")

/-- The panic raised in strict mode for a word that does not parse. -/
def invalidInput (text : String) : Panic :=
  .message ("invalid input " ++ text)

/-- The function `scanNumbers`, over the words of one source. -/
def scanNumbers {α : Type} (parse : String → Option α) (fStrict : Bool) :
    List String → St α → St α × Option Panic
  | [], s => (s, none)
  | text :: rest, s =>
    match parse text with
    | none =>
      if fStrict then (s, some (invalidInput text))
      else scanNumbers parse fStrict rest { s with stdout := s.stdout ++ [warning text] }
    | some r => scanNumbers parse fStrict rest { s with data := s.data ++ [r] }

/-- The loop of `loadData` over the named files. -/
def loadFiles {α : Type} (parse : String → Option α) (fStrict : Bool)
    (fs : String → Option (List String)) : List String → St α → St α × Option Panic
  | [], s => (s, none)
  | name :: names, s =>
    match fs name with
    | none => (s, some (.openError name))
    | some fp =>
      match scanNumbers parse fStrict fp s with
      | (s, some p) => (s, some p)
      | (s, none) => loadFiles parse fStrict fs names s

/-- The function `loadData`. -/
def loadData {α : Type} (parse : String → Option α) (env : Env) (s : St α) :
    St α × Option Panic :=
  let r := if env.args.length > 0 then
      loadFiles parse env.flags.fStrict env.fs env.args s
    else scanNumbers parse env.flags.fStrict env.stdin s
  match r with
  | (s, some p) => (s, some p)
  | (s, none) =>
    if s.data.length = 0 then (s, some (.message "No numbers given"))
    else (s, none)

/-- The function `main`, after the flags are parsed. -/
def main (parse : String → Option ℚ) (sqrt : ℚ → ℚ) (env : Env) : Run :=
  match loadData parse env { data := [], stdout := [] } with
  | (s, some p) => { stdout := s.stdout, fatal := some p }
  | (s, none) =>
    match dispData sqrt env.flags s.data with
    | .error p => { stdout := s.stdout, fatal := some p }
    | .ok rows => { stdout := s.stdout ++ [.table rows], fatal := none }

/-! ## The float64 arithmetic of the source

A finite float64 is an integer multiple of `2^(-1074)`, the least positive
subnormal: `F64.fin k` is the value `k * 2^(-1074)`.  The finite values are the
`k = ± m * 2^s` with `m < 2^53` of magnitude at most `maxFinite`.  The two signed
zeros are one value, `F64.fin 0`: the program never tells them apart (its only
divisors are `float64(len(data))` and the constant `2`). -/

/-- A float64: a finite value in units of `2^(-1074)`, an infinity, or NaN. -/
inductive F64 where
  | fin (k : Int)
  | inf (neg : Bool)
  | nan
  deriving DecidableEq

deriving instance DecidableEq for Except

/-- The loop of `ilog2`: halve `n` until it is below 2, counting the steps. -/
def ilog2Aux : Nat → Nat → Nat → Nat
  | 0, _, acc => acc
  | fuel + 1, n, acc => if n < 2 then acc else ilog2Aux fuel (n / 2) (acc + 1)

/-- The position of the leading bit of `n`: `⌊log₂ n⌋` (and 0 for `n = 0`). -/
def ilog2 (n : Nat) : Nat := ilog2Aux n n 0

/-- The integer nearest to `n / d`, the even one of the two when `n / d` is
half-way between them. -/
def roundHalfEven (n d : Nat) : Nat :=
  if 2 * (n % d) < d then n / d
  else if d < 2 * (n % d) then n / d + 1
  else if (n / d) % 2 = 0 then n / d else n / d + 1

/-- The magnitude `n / d`, in units of `2^(-1074)`, rounded to the nearest
float64 magnitude with the exponent unbounded above: below `2^53` units the
float64 values are the integers; from there on a value whose leading bit is at
position `p` is rounded to a multiple of `2^(p - 52)`. -/
def round53 (n d : Nat) : Nat :=
  if n / d < 2 ^ 53 then roundHalfEven n d
  else roundHalfEven n (d * 2 ^ (ilog2 (n / d) - 52)) * 2 ^ (ilog2 (n / d) - 52)

/-- The largest finite float64, `(2^53 - 1) * 2^971`, in units of `2^(-1074)`. -/
def maxFinite : Nat := (2 ^ 53 - 1) * 2 ^ 2045

/-- The float64 nearest to the real number of sign `neg` and magnitude `n / d`
units: the rounded magnitude, or an infinity when that exceeds `maxFinite`. -/
def F64.ofMag (neg : Bool) (n d : Nat) : F64 :=
  if maxFinite < round53 n d then .inf neg
  else .fin (if neg then - (round53 n d : Int) else (round53 n d : Int))

/-- The float64 nearest to `z` units. -/
def F64.ofInt (z : Int) : F64 := F64.ofMag (decide (z < 0)) z.natAbs 1

/-- The conversion `float64(n)` of a non-negative `int`. -/
def F64.ofNat (n : Nat) : F64 := F64.ofMag false (n * 2 ^ 1074) 1

/-- The float64 operation `x + y`. -/
def F64.add : F64 → F64 → F64
  | .fin a, .fin b => F64.ofInt (a + b)
  | .fin _, .inf s => .inf s
  | .inf s, .fin _ => .inf s
  | .inf s, .inf t => if s = t then .inf s else .nan
  | _, _ => .nan

/-- The float64 operation `-x`. -/
def F64.neg : F64 → F64
  | .fin a => .fin (-a)
  | .inf s => .inf (!s)
  | .nan => .nan

/-- The float64 operation `x - y`. -/
def F64.sub (x y : F64) : F64 := F64.add x (F64.neg y)

/-- The float64 operation `x * y`: the exact product of `a` and `b` units is
`a * b / 2^1074` units. -/
def F64.mul : F64 → F64 → F64
  | .fin a, .fin b =>
    F64.ofMag (decide (a < 0) != decide (b < 0)) (a.natAbs * b.natAbs) (2 ^ 1074)
  | .fin a, .inf s => if a = 0 then .nan else .inf (decide (a < 0) != s)
  | .inf s, .fin b => if b = 0 then .nan else .inf (s != decide (b < 0))
  | .inf s, .inf t => .inf (s != t)
  | _, _ => .nan

/-- The float64 operation `x / y`: the exact quotient of `a` and `b` units is
`a * 2^1074 / b` units.  A zero divisor is taken as `+0`. -/
def F64.div : F64 → F64 → F64
  | .fin a, .fin b =>
    if b = 0 then (if a = 0 then .nan else .inf (decide (a < 0)))
    else F64.ofMag (decide (a < 0) != decide (b < 0)) (a.natAbs * 2 ^ 1074) b.natAbs
  | .fin _, .inf _ => .fin 0
  | .inf s, .fin b => .inf (s != decide (b < 0))
  | _, _ => .nan

/-- The float64 comparison `x < y`, false when either side is NaN. -/
def F64.lt : F64 → F64 → Bool
  | .fin a, .fin b => decide (a < b)
  | .fin _, .inf s => !s
  | .inf s, .fin _ => s
  | .inf s, .inf t => s && !t
  | _, _ => false

/-- The float64 comparison `x <= y`, false when either side is NaN. -/
def F64.le : F64 → F64 → Bool
  | .fin a, .fin b => decide (a ≤ b)
  | .fin _, .inf s => !s
  | .inf s, .fin _ => s
  | .inf s, .inf t => s || !t
  | _, _ => false

/-- The float64 comparison `x > y`. -/
def F64.gt (x y : F64) : Bool := F64.lt y x

/-- The test `x != x` of the `sort` package: is `x` NaN. -/
def F64.isNaN : F64 → Bool
  | .nan => true
  | _ => false

/-- Is the value a finite float64: `k` units with `k = ± m * 2^s`, `m < 2^53`,
of magnitude at most `maxFinite` (the magnitudes that rounding leaves fixed). -/
def F64.isFinite : F64 → Bool
  | .fin k => decide (round53 k.natAbs 1 = k.natAbs) && decide (k.natAbs ≤ maxFinite)
  | _ => false

/-! ## The aggregator in float64 -/

namespace Float64

/-- The order of `sort.Float64Slice`: `x < y`, with NaN before everything else. -/
def less (x y : F64) : Bool := F64.lt x y || (x.isNaN && !y.isNaN)

/-- The function `sort.Float64s`: `data` in the ascending order of `less`. -/
def sortFloat64s (data : List F64) : List F64 :=
  data.insertionSort (fun x y => less y x = false)

/-- The function `sum` in float64. -/
def sum (data : List F64) : F64 :=
  data.foldl (fun x r => F64.add x r) (.fin 0)

/-- The function `average` in float64. -/
def average (data : List F64) : F64 :=
  F64.div (sum data) (F64.ofNat data.length)

/-- The function `min` in float64. -/
def min (data : List F64) : Except Panic F64 := do
  let x ← index data 0
  return data.foldl (fun x r => if F64.gt x r then r else x) x

/-- The function `max` in float64. -/
def max (data : List F64) : Except Panic F64 := do
  let x ← index data 0
  return data.foldl (fun x r => if F64.lt x r then r else x) x

/-- The function `variance` in float64. -/
def variance (data : List F64) : F64 :=
  let avg := average data
  F64.div
    (data.foldl (fun x r => F64.add x (F64.mul (F64.sub r avg) (F64.sub r avg))) (.fin 0))
    (F64.ofNat data.length)

/-- The function `medSorted` in float64. -/
def medSorted (data : List F64) : Except Panic F64 :=
  if len data = 1 then
    index data 0
  else if (len data).tmod 2 = 1 then
    index data (((len data) - 1).tdiv 2)
  else do
    let a ← index data ((len data).tdiv 2 - 1)
    let b ← index data ((len data).tdiv 2)
    return F64.div (F64.add a b) (F64.ofNat 2)

/-- The function `quantile` in float64; the sorted slice is returned next to
the three results. -/
def quantile (data : List F64) : Except Panic ((F64 × F64 × F64) × List F64) := do
  let data := sortFloat64s data
  let halfL := data.take (data.length / 2)
  let halfH := data.drop (data.length / 2)
  let q1 ← medSorted halfL
  let med ← medSorted data
  let q3 ← medSorted halfH
  return ((q1, med, q3), data)

end Float64

/-! ## Vocabulary of the statements -/

/-- The warnings printed, in non-strict mode, for the words of `toks`. -/
def warnings {α : Type} (parse : String → Option α) (toks : List String) : List Out :=
  (toks.filter (fun t => (parse t).isNone)).map
    (fun t => Out.text ("warning: invalid input " ++ t ++ "\n"))

/-- The words of the named files that are read before the first file that
cannot be opened. -/
def wordsOfFiles (fs : String → Option (List String)) : List String → List String
  | [] => []
  | name :: names =>
    match fs name with
    | none => []
    | some fp => fp ++ wordsOfFiles fs names

/-- The words the run reads when no token stops it: those of the named files,
or of standard input when no file is named. -/
def wordsRead (env : Env) : List String :=
  if env.args.length > 0 then wordsOfFiles env.fs env.args else env.stdin

/-- The panic of the first named file that cannot be opened, if there is one. -/
def openFailure (env : Env) : Option Panic :=
  (env.args.find? (fun name => (env.fs name).isNone)).map Panic.openError

/-- The same environment with every word that does not parse removed from
every source. -/
def Env.clean {α : Type} (parse : String → Option α) (env : Env) : Env :=
  { env with
    fs := fun name => (env.fs name).map (fun fp => fp.filter (fun t => (parse t).isSome))
    stdin := env.stdin.filter (fun t => (parse t).isSome) }

/-- A sample parser for the worked examples: the words `1`, `2` and `5` are
numbers, every other word is invalid. -/
def parseSample (text : String) : Option ℚ :=
  if text = "1" then some 1 else if text = "2" then some 2
  else if text = "5" then some 5 else none

/-- A sample run for the worked examples: no flag set, no file named, the
words `toks` on standard input. -/
def envStdin (toks : List String) : Env :=
  { flags := { fNoHead := false, fComplete := false, fStrict := false },
    args := [], fs := fun _ => none, stdin := toks }

/-- The float64 `2^1023`, half of the least power of two that overflows:
`2^1023 = 2^2097 * 2^(-1074)`. -/
def huge : F64 := .fin ((2 ^ 2097 : Nat) : Int)

/-- The float64 nearest to one tenth, `0x3FB999999999999A`:
`7205759403792794 * 2^(-56) = 7205759403792794 * 2^1018 * 2^(-1074)`. -/
def tenth : F64 := .fin ((7205759403792794 * 2 ^ 1018 : Nat) : Int)

/-- The float64 `2^(-540) = 2^534 * 2^(-1074)`, whose square underflows. -/
def tiny : F64 := .fin ((2 ^ 534 : Nat) : Int)

/-! ## Indexing and the median of a sorted slice -/

theorem index_natCast {α : Type} (data : List α) (i : Nat) (x : α)
    (h : data[i]? = some x) : index data (i : Int) = .ok x := by
  have hi : ¬ ((i : Int) < 0) := by omega
  simp [index, hi, h]

theorem index_neg {α : Type} (data : List α) (i : Int) (h : i < 0) :
    index data i = .error (.indexOutOfRange i data.length) := by
  simp [index, h]

theorem tdiv_two (n : Nat) : (n : Int).tdiv 2 = ((n / 2 : Nat) : Int) := by
  rw [Int.tdiv_eq_ediv (by omega) (by omega)]; omega

theorem tmod_two (n : Nat) : (n : Int).tmod 2 = ((n % 2 : Nat) : Int) := by
  rw [Int.tmod_eq_emod (by omega) (by omega)]; omega

/-- The odd branch of `medSorted` (length one included): the middle element. -/
theorem medSorted_odd (d : List ℚ) (x : ℚ) (hodd : d.length % 2 = 1)
    (hx : d[(d.length - 1) / 2]? = some x) : medSorted d = .ok x := by
  unfold medSorted len
  by_cases h1 : ((d.length : Int) = 1)
  · have h1n : d.length = 1 := by omega
    rw [if_pos h1]
    rw [h1n] at hx
    exact index_natCast d 0 x hx
  · rw [if_neg h1, tmod_two, if_pos (by omega)]
    have e : ((d.length : Int) - 1) = (((d.length - 1 : Nat)) : Int) := by omega
    rw [e, tdiv_two]
    exact index_natCast d _ x hx

/-- The even branch of `medSorted` on a non-empty slice: the mean of the two
central elements. -/
theorem medSorted_even (d : List ℚ) (a b : ℚ) (hpos : 0 < d.length)
    (heven : d.length % 2 = 0) (ha : d[d.length / 2 - 1]? = some a)
    (hb : d[d.length / 2]? = some b) : medSorted d = .ok ((a + b) / 2) := by
  unfold medSorted len
  have h1 : ¬ ((d.length : Int) = 1) := by omega
  rw [if_neg h1, tmod_two, if_neg (by omega), tdiv_two]
  have e : (((d.length / 2 : Nat) : Int) - 1) = (((d.length / 2 - 1 : Nat)) : Int) := by omega
  rw [e, index_natCast d _ a ha, index_natCast d _ b hb]
  rfl

/-- On the empty slice `medSorted` takes the even branch and indexes at `-1`. -/
theorem medSorted_nil : medSorted [] = .error (.indexOutOfRange (-1) 0) := by
  simp [medSorted, len, index, Int.tmod, Int.tdiv, bind, Except.bind]

/-- On a non-empty slice `medSorted` returns, and what it returns lies between
any two bounds of the elements. -/
theorem medSorted_bounds (d : List ℚ) (lo hi : ℚ) (hpos : 0 < d.length)
    (hlo : ∀ x ∈ d, lo ≤ x) (hhi : ∀ x ∈ d, x ≤ hi) :
    ∃ m, medSorted d = .ok m ∧ lo ≤ m ∧ m ≤ hi := by
  rcases Nat.mod_two_eq_zero_or_one d.length with h | h
  · have h1 : d.length / 2 - 1 < d.length := by omega
    have h2 : d.length / 2 < d.length := by omega
    have e1 := List.getElem?_eq_getElem h1
    have e2 := List.getElem?_eq_getElem h2
    refine ⟨_, medSorted_even d _ _ hpos h e1 e2, ?_, ?_⟩
    · have := hlo _ (List.getElem?_mem e1)
      have := hlo _ (List.getElem?_mem e2)
      linarith
    · have := hhi _ (List.getElem?_mem e1)
      have := hhi _ (List.getElem?_mem e2)
      linarith
  · have h1 : (d.length - 1) / 2 < d.length := by omega
    have e1 := List.getElem?_eq_getElem h1
    exact ⟨_, medSorted_odd d _ h e1, hlo _ (List.getElem?_mem e1),
      hhi _ (List.getElem?_mem e1)⟩

/-! ## Sorting -/

theorem sortFloat64s_sorted (S : List ℚ) : (sortFloat64s S).Sorted (· ≤ ·) :=
  List.sorted_insertionSort _ S

theorem sortFloat64s_perm (S : List ℚ) : (sortFloat64s S).Perm S :=
  List.perm_insertionSort _ S

theorem sortFloat64s_length (S : List ℚ) : (sortFloat64s S).length = S.length :=
  List.length_insertionSort _ S

/-- The ascending sort of a list is unique: every ascending permutation of `S`
is `sortFloat64s S`. -/
theorem sort_unique (S T : List ℚ) (hs : T.Sorted (· ≤ ·)) (hp : T.Perm S) :
    T = sortFloat64s S :=
  List.eq_of_perm_of_sorted (hp.trans (sortFloat64s_perm S).symm) hs (sortFloat64s_sorted S)

/-! ## Quantiles -/

/-- The function `quantile` returns as soon as its three medians do. -/
theorem quantile_eq (S : List ℚ) (q1 med q3 : ℚ)
    (h1 : medSorted ((sortFloat64s S).take (S.length / 2)) = .ok q1)
    (h2 : medSorted (sortFloat64s S) = .ok med)
    (h3 : medSorted ((sortFloat64s S).drop (S.length / 2)) = .ok q3) :
    quantile S = .ok ((q1, med, q3), sortFloat64s S) := by
  simp [quantile, sortFloat64s_length, h1, h2, h3, bind, Except.bind, pure, Except.pure]

/-- On a non-empty slice `medSorted` returns. -/
theorem medSorted_returns (d : List ℚ) (hpos : 0 < d.length) : ∃ m, medSorted d = .ok m := by
  rcases Nat.mod_two_eq_zero_or_one d.length with h | h
  · have h1 : d.length / 2 - 1 < d.length := by omega
    have h2 : d.length / 2 < d.length := by omega
    exact ⟨_, medSorted_even d _ _ hpos h (List.getElem?_eq_getElem h1)
      (List.getElem?_eq_getElem h2)⟩
  · have h1 : (d.length - 1) / 2 < d.length := by omega
    exact ⟨_, medSorted_odd d _ h (List.getElem?_eq_getElem h1)⟩

/-- On two or more values all three medians of `quantile` are defined. -/
theorem quantile_medians (S : List ℚ) (h : 2 ≤ S.length) :
    ∃ q1 med q3,
      medSorted ((sortFloat64s S).take (S.length / 2)) = .ok q1 ∧
      medSorted (sortFloat64s S) = .ok med ∧
      medSorted ((sortFloat64s S).drop (S.length / 2)) = .ok q3 := by
  have hl := sortFloat64s_length S
  obtain ⟨q1, h1⟩ := medSorted_returns ((sortFloat64s S).take (S.length / 2))
    (by rw [List.length_take, hl]; omega)
  obtain ⟨med, h2⟩ := medSorted_returns (sortFloat64s S) (by omega)
  obtain ⟨q3, h3⟩ := medSorted_returns ((sortFloat64s S).drop (S.length / 2))
    (by rw [List.length_drop, hl]; omega)
  exact ⟨q1, med, q3, h1, h2, h3⟩

/-- C1 (fails on the code): on a sequence of length one `quantile` applies
`medSorted` to the empty lower half `data[:0]`, whose even branch indexes at
`-1`: the call panics with an index out of range instead of returning. -/
theorem quantile_singleton_panics (x : ℚ) :
    medSorted (List.take ([x].length / 2) (sortFloat64s [x])) = medSorted [] ∧
    medSorted [] = .error (.indexOutOfRange (-1) 0) ∧
    quantile [x] = .error (.indexOutOfRange (-1) 0) := by
  refine ⟨by simp [sortFloat64s], medSorted_nil, ?_⟩
  simp [quantile, sortFloat64s, medSorted_nil, bind, Except.bind]

/-- C3: on a sequence `S` of length `n ≥ 2`, with `T` the ascending sort of
`S`, `quantile` returns the medians of `T[0 : n/2]` (of length `n/2`), of `T`
and of `T[n/2 : n]` (of length `n - n/2`), and leaves `T` in the slice; on
`[1,2,3,4,5,6,7,8]` these are `2.5`, `4.5` and `6.5`. -/
theorem quantile_halves (S : List ℚ) (h : 2 ≤ S.length) :
    (∃ q1 med q3,
      (sortFloat64s S).Sorted (· ≤ ·) ∧ (sortFloat64s S).Perm S ∧
      ((sortFloat64s S).take (S.length / 2)).length = S.length / 2 ∧
      ((sortFloat64s S).drop (S.length / 2)).length = S.length - S.length / 2 ∧
      medSorted ((sortFloat64s S).take (S.length / 2)) = .ok q1 ∧
      medSorted (sortFloat64s S) = .ok med ∧
      medSorted ((sortFloat64s S).drop (S.length / 2)) = .ok q3 ∧
      quantile S = .ok ((q1, med, q3), sortFloat64s S)) ∧
    quantile [1, 2, 3, 4, 5, 6, 7, 8]
      = .ok ((5 / 2, 9 / 2, 13 / 2), [1, 2, 3, 4, 5, 6, 7, 8]) := by
  constructor
  · obtain ⟨q1, med, q3, h1, h2, h3⟩ := quantile_medians S h
    refine ⟨q1, med, q3, sortFloat64s_sorted S, sortFloat64s_perm S, ?_, ?_, h1, h2, h3,
      quantile_eq S q1 med q3 h1 h2 h3⟩
    · rw [List.length_take, sortFloat64s_length]; omega
    · rw [List.length_drop, sortFloat64s_length]
  · have hs : sortFloat64s [1, 2, 3, 4, 5, 6, 7, 8] = [1, 2, 3, 4, 5, 6, 7, 8] := by decide
    have e := quantile_eq [1, 2, 3, 4, 5, 6, 7, 8] (5 / 2) (9 / 2) (13 / 2)
      (by rw [hs]
          have := medSorted_even [1, 2, 3, 4] 2 3 (by decide) (by decide) (by simp) (by simp)
          norm_num at this
          simpa using this)
      (by rw [hs]
          have := medSorted_even [1, 2, 3, 4, 5, 6, 7, 8] 4 5 (by decide) (by decide)
            (by simp) (by simp)
          norm_num at this
          simpa using this)
      (by rw [hs]
          have := medSorted_even [5, 6, 7, 8] 6 7 (by decide) (by decide) (by simp) (by simp)
          norm_num at this
          simpa using this)
    rw [hs] at e
    exact e

theorem quantile_halves_witness :
    2 ≤ ([2, 1] : List ℚ).length ∧
    ((∃ q1 med q3,
      (sortFloat64s [2, 1]).Sorted (· ≤ ·) ∧ (sortFloat64s [2, 1]).Perm [2, 1] ∧
      ((sortFloat64s [2, 1]).take (([2, 1] : List ℚ).length / 2)).length
        = ([2, 1] : List ℚ).length / 2 ∧
      ((sortFloat64s [2, 1]).drop (([2, 1] : List ℚ).length / 2)).length
        = ([2, 1] : List ℚ).length - ([2, 1] : List ℚ).length / 2 ∧
      medSorted ((sortFloat64s [2, 1]).take (([2, 1] : List ℚ).length / 2)) = .ok q1 ∧
      medSorted (sortFloat64s [2, 1]) = .ok med ∧
      medSorted ((sortFloat64s [2, 1]).drop (([2, 1] : List ℚ).length / 2)) = .ok q3 ∧
      quantile [2, 1] = .ok ((q1, med, q3), sortFloat64s [2, 1])) ∧
    quantile [1, 2, 3, 4, 5, 6, 7, 8]
      = .ok ((5 / 2, 9 / 2, 13 / 2), [1, 2, 3, 4, 5, 6, 7, 8])) :=
  ⟨by decide, quantile_halves [2, 1] (by decide)⟩

/-- C4: on a non-empty slice `d`, `medSorted` returns `d[0]` when the length is
one, the middle element `d[(len-1)/2]` when the length is odd, and the mean of
`d[len/2 - 1]` and `d[len/2]` when it is even; the median of `[3, 1, 2]`, once
sorted, is `2` and that of `[1, 2, 3, 4]` is `2.5`. -/
theorem medSorted_spec (d : List ℚ) (h : d ≠ []) :
    (d.length = 1 → ∃ x, d[0]? = some x ∧ medSorted d = .ok x) ∧
    (d.length % 2 = 1 → ∃ x, d[(d.length - 1) / 2]? = some x ∧ medSorted d = .ok x) ∧
    (d.length % 2 = 0 → ∃ a b, d[d.length / 2 - 1]? = some a ∧ d[d.length / 2]? = some b ∧
      medSorted d = .ok ((a + b) / 2)) ∧
    medSorted (sortFloat64s [3, 1, 2]) = .ok 2 ∧
    medSorted [1, 2, 3, 4] = .ok (5 / 2) := by
  have hpos : 0 < d.length := List.length_pos.2 h
  refine ⟨?_, ?_, ?_, ?_, ?_⟩
  · intro h1
    have e := List.getElem?_eq_getElem hpos
    refine ⟨_, e, medSorted_odd d _ (by omega) ?_⟩
    rw [h1]; exact e
  · intro hodd
    have hi : (d.length - 1) / 2 < d.length := by omega
    have e := List.getElem?_eq_getElem hi
    exact ⟨_, e, medSorted_odd d _ hodd e⟩
  · intro heven
    have h1 : d.length / 2 - 1 < d.length := by omega
    have h2 : d.length / 2 < d.length := by omega
    have e1 := List.getElem?_eq_getElem h1
    have e2 := List.getElem?_eq_getElem h2
    exact ⟨_, _, e1, e2, medSorted_even d _ _ hpos heven e1 e2⟩
  · have hs : sortFloat64s [3, 1, 2] = [1, 2, 3] := by decide
    rw [hs]
    exact medSorted_odd [1, 2, 3] 2 (by decide) (by simp)
  · have := medSorted_even [1, 2, 3, 4] 2 3 (by decide) (by decide) (by simp) (by simp)
    norm_num at this
    simpa using this

theorem medSorted_spec_witness :
    ([4, 7] : List ℚ) ≠ [] ∧
    ((([4, 7] : List ℚ).length = 1 →
        ∃ x, ([4, 7] : List ℚ)[0]? = some x ∧ medSorted [4, 7] = .ok x) ∧
    (([4, 7] : List ℚ).length % 2 = 1 →
        ∃ x, ([4, 7] : List ℚ)[(([4, 7] : List ℚ).length - 1) / 2]? = some x ∧
          medSorted [4, 7] = .ok x) ∧
    (([4, 7] : List ℚ).length % 2 = 0 →
        ∃ a b, ([4, 7] : List ℚ)[([4, 7] : List ℚ).length / 2 - 1]? = some a ∧
          ([4, 7] : List ℚ)[([4, 7] : List ℚ).length / 2]? = some b ∧
          medSorted [4, 7] = .ok ((a + b) / 2)) ∧
    medSorted (sortFloat64s [3, 1, 2]) = .ok 2 ∧
    medSorted [1, 2, 3, 4] = .ok (5 / 2)) :=
  ⟨by simp, medSorted_spec [4, 7] (by simp)⟩

/-! ## Minimum, maximum and mean -/

theorem foldl_min_le (l : List ℚ) (x : ℚ) :
    l.foldl (fun x r => if x > r then r else x) x ≤ x ∧
    ∀ r ∈ l, l.foldl (fun x r => if x > r then r else x) x ≤ r := by
  induction l generalizing x with
  | nil => simp
  | cons a t ih =>
    simp only [List.foldl_cons]
    obtain ⟨h0, ht⟩ := ih (if x > a then a else x)
    have hx : (if x > a then a else x) ≤ x := by
      split_ifs with c
      · exact le_of_lt c
      · exact le_refl _
    have ha : (if x > a then a else x) ≤ a := by
      split_ifs with c
      · exact le_refl _
      · exact not_lt.1 c
    refine ⟨le_trans h0 hx, ?_⟩
    intro r hr
    rcases List.mem_cons.1 hr with rfl | hr
    · exact le_trans h0 ha
    · exact ht r hr

theorem le_foldl_max (l : List ℚ) (x : ℚ) :
    x ≤ l.foldl (fun x r => if x < r then r else x) x ∧
    ∀ r ∈ l, r ≤ l.foldl (fun x r => if x < r then r else x) x := by
  induction l generalizing x with
  | nil => simp
  | cons a t ih =>
    simp only [List.foldl_cons]
    obtain ⟨h0, ht⟩ := ih (if x < a then a else x)
    have hx : x ≤ (if x < a then a else x) := by
      split_ifs with c
      · exact le_of_lt c
      · exact le_refl _
    have ha : a ≤ (if x < a then a else x) := by
      split_ifs with c
      · exact le_refl _
      · exact not_lt.1 c
    refine ⟨le_trans hx h0, ?_⟩
    intro r hr
    rcases List.mem_cons.1 hr with rfl | hr
    · exact le_trans ha h0
    · exact ht r hr

/-- On a non-empty slice `min` returns a lower bound of the elements. -/
theorem min_returns (S : List ℚ) (h : S ≠ []) :
    ∃ lo, min S = .ok lo ∧ ∀ x ∈ S, lo ≤ x := by
  cases S with
  | nil => exact absurd rfl h
  | cons a t =>
    refine ⟨(a :: t).foldl (fun x r => if x > r then r else x) a, ?_,
      (foldl_min_le (a :: t) a).2⟩
    simp [min, index, bind, Except.bind, pure, Except.pure]

/-- On a non-empty slice `max` returns an upper bound of the elements. -/
theorem max_returns (S : List ℚ) (h : S ≠ []) :
    ∃ hi, max S = .ok hi ∧ ∀ x ∈ S, x ≤ hi := by
  cases S with
  | nil => exact absurd rfl h
  | cons a t =>
    refine ⟨(a :: t).foldl (fun x r => if x < r then r else x) a, ?_,
      (le_foldl_max (a :: t) a).2⟩
    simp [max, index, bind, Except.bind, pure, Except.pure]

/-- The accumulation loop of `sum`, started from `x`. -/
theorem foldl_add (l : List ℚ) (x : ℚ) : l.foldl (fun x r => x + r) x = x + l.sum := by
  induction l generalizing x with
  | nil => simp
  | cons a t ih => simp only [List.foldl_cons, List.sum_cons, ih]; ring

theorem sum_eq (S : List ℚ) : sum S = S.sum := by
  simp [sum, foldl_add]

theorem length_mul_le_sum (S : List ℚ) (lo : ℚ) (h : ∀ x ∈ S, lo ≤ x) :
    (S.length : ℚ) * lo ≤ S.sum := by
  induction S with
  | nil => simp
  | cons a t ih =>
    have h1 := h a (List.mem_cons_self _ _)
    have h2 := ih (fun x hx => h x (List.mem_cons_of_mem _ hx))
    simp only [List.length_cons, List.sum_cons]
    push_cast
    linarith

theorem sum_le_length_mul (S : List ℚ) (hi : ℚ) (h : ∀ x ∈ S, x ≤ hi) :
    S.sum ≤ (S.length : ℚ) * hi := by
  induction S with
  | nil => simp
  | cons a t ih =>
    have h1 := h a (List.mem_cons_self _ _)
    have h2 := ih (fun x hx => h x (List.mem_cons_of_mem _ hx))
    simp only [List.length_cons, List.sum_cons]
    push_cast
    linarith

/-- C5: on a non-empty sequence `min` and `max` return, and the mean lies
between them: `min(S) ≤ average(S) ≤ max(S)`. -/
theorem min_le_average_le_max (S : List ℚ) (h : S ≠ []) :
    ∃ lo hi, min S = .ok lo ∧ max S = .ok hi ∧ lo ≤ average S ∧ average S ≤ hi := by
  obtain ⟨lo, hlo, blo⟩ := min_returns S h
  obtain ⟨hi, hhi, bhi⟩ := max_returns S h
  have hn : (0 : ℚ) < (S.length : ℚ) := by
    exact_mod_cast List.length_pos.2 h
  refine ⟨lo, hi, hlo, hhi, ?_, ?_⟩
  · rw [average, sum_eq, le_div_iff₀ hn]
    have := length_mul_le_sum S lo blo
    linarith
  · rw [average, sum_eq, div_le_iff₀ hn]
    have := sum_le_length_mul S hi bhi
    linarith

theorem min_le_average_le_max_witness :
    ([3, 1, 2] : List ℚ) ≠ [] ∧
    ∃ lo hi, min [3, 1, 2] = .ok lo ∧ max [3, 1, 2] = .ok hi ∧
      lo ≤ average [3, 1, 2] ∧ average [3, 1, 2] ≤ hi :=
  ⟨by simp, min_le_average_le_max [3, 1, 2] (by simp)⟩

/-- In exact arithmetic, on a non-empty sequence the median, `medSorted` of the
ascending sort (the second result of `quantile` whenever `quantile` returns),
lies between the minimum and the maximum: `min(S) ≤ median(S) ≤ max(S)`. -/
theorem min_le_median_le_max (S : List ℚ) (h : S ≠ []) :
    ∃ lo hi med, min S = .ok lo ∧ max S = .ok hi ∧
      medSorted (sortFloat64s S) = .ok med ∧ lo ≤ med ∧ med ≤ hi ∧
      ∀ q1 m q3 T, quantile S = .ok ((q1, m, q3), T) → m = med := by
  obtain ⟨lo, hlo, blo⟩ := min_returns S h
  obtain ⟨hi, hhi, bhi⟩ := max_returns S h
  have hpos : 0 < (sortFloat64s S).length := by
    rw [sortFloat64s_length]; exact List.length_pos.2 h
  obtain ⟨med, hmed, h1, h2⟩ := medSorted_bounds (sortFloat64s S) lo hi hpos
    (fun x hx => blo x ((sortFloat64s_perm S).mem_iff.1 hx))
    (fun x hx => bhi x ((sortFloat64s_perm S).mem_iff.1 hx))
  refine ⟨lo, hi, med, hlo, hhi, hmed, h1, h2, ?_⟩
  intro q1 m q3 T hq
  simp only [quantile, hmed, bind, Except.bind, pure, Except.pure] at hq
  split at hq
  · exact absurd hq (by simp)
  · split at hq
    · exact absurd hq (by simp)
    · simp only [Except.ok.injEq, Prod.mk.injEq] at hq
      exact hq.1.2.1.symm

/-! ## Scanning -/

theorem warnings_nil {α : Type} (parse : String → Option α) : warnings parse [] = [] := rfl

theorem warnings_append {α : Type} (parse : String → Option α) (a b : List String) :
    warnings parse (a ++ b) = warnings parse a ++ warnings parse b := by
  simp [warnings]

theorem warnings_clean {α : Type} (parse : String → Option α) (toks : List String) :
    warnings parse (toks.filter (fun t => (parse t).isSome)) = [] := by
  induction toks with
  | nil => rfl
  | cons t rest ih =>
    cases h : parse t with
    | none => simpa [List.filter_cons, h] using ih
    | some x =>
      simp only [List.filter_cons, h, Option.isSome_some, if_true]
      simp [warnings, List.filter_cons, h]

theorem filterMap_clean {α : Type} (parse : String → Option α) (toks : List String) :
    (toks.filter (fun t => (parse t).isSome)).filterMap parse = toks.filterMap parse := by
  induction toks with
  | nil => rfl
  | cons t rest ih =>
    cases h : parse t with
    | none => simpa [List.filter_cons, List.filterMap_cons, h] using ih
    | some x => simpa [List.filter_cons, List.filterMap_cons, h] using ih

/-- Non-strict scanning in closed form: it never fails, appends the parsed
values and prints one warning per word that does not parse. -/
theorem scanNumbers_nonstrict {α : Type} (parse : String → Option α) (toks : List String)
    (s : St α) :
    scanNumbers parse false toks s
      = ({ data := s.data ++ toks.filterMap parse,
           stdout := s.stdout ++ warnings parse toks }, none) := by
  induction toks generalizing s with
  | nil => simp [scanNumbers, warnings]
  | cons t rest ih =>
    cases h : parse t with
    | none =>
      simp [scanNumbers, h, ih, warning, warnings, List.filter_cons, List.filterMap_cons]
    | some x =>
      simp [scanNumbers, h, ih, warnings, List.filter_cons, List.filterMap_cons]

/-- Strict scanning in closed form: it stops at the first word that does not
parse and prints nothing. -/
theorem scanNumbers_strict {α : Type} (parse : String → Option α) (toks : List String)
    (s : St α) :
    scanNumbers parse true toks s
      = ({ data := s.data ++ (toks.takeWhile (fun t => (parse t).isSome)).filterMap parse,
           stdout := s.stdout },
         (toks.find? (fun t => (parse t).isNone)).map
           (fun t => Panic.message ("invalid input " ++ t))) := by
  induction toks generalizing s with
  | nil => simp [scanNumbers]
  | cons t rest ih =>
    cases h : parse t with
    | none =>
      simp [scanNumbers, h, invalidInput, List.takeWhile_cons, List.find?_cons]
    | some x =>
      simp [scanNumbers, h, ih, List.takeWhile_cons, List.find?_cons, List.filterMap_cons]

/-- Non-strict loading of the named files in closed form. -/
theorem loadFiles_nonstrict {α : Type} (parse : String → Option α)
    (fs : String → Option (List String)) (args : List String) (s : St α) :
    loadFiles parse false fs args s
      = ({ data := s.data ++ (wordsOfFiles fs args).filterMap parse,
           stdout := s.stdout ++ warnings parse (wordsOfFiles fs args) },
         (args.find? (fun name => (fs name).isNone)).map Panic.openError) := by
  induction args generalizing s with
  | nil => simp [loadFiles, wordsOfFiles, warnings]
  | cons name names ih =>
    cases h : fs name with
    | none => simp [loadFiles, wordsOfFiles, h, warnings, List.find?_cons]
    | some fp =>
      simp [loadFiles, wordsOfFiles, h, scanNumbers_nonstrict, ih, warnings_append,
        List.find?_cons, List.filterMap_append]

theorem openFailure_nil (env : Env) (h : ¬ env.args.length > 0) : openFailure env = none := by
  have : env.args = [] := by
    cases hargs : env.args with
    | nil => rfl
    | cons a t => simp [hargs] at h
  simp [openFailure, this]

/-- Non-strict `loadData` in closed form. -/
theorem loadData_nonstrict {α : Type} (parse : String → Option α) (env : Env) (s : St α)
    (h : env.flags.fStrict = false) :
    loadData parse env s
      = ({ data := s.data ++ (wordsRead env).filterMap parse,
           stdout := s.stdout ++ warnings parse (wordsRead env) },
         match openFailure env with
         | some p => some p
         | none =>
           if (s.data ++ (wordsRead env).filterMap parse).length = 0 then
             some (.message "No numbers given")
           else none) := by
  unfold loadData
  rw [h]
  by_cases hargs : env.args.length > 0
  · rw [if_pos hargs, loadFiles_nonstrict]
    simp only [wordsRead, if_pos hargs, openFailure]
    cases (env.args.find? (fun name => (env.fs name).isNone)) with
    | some name => rfl
    | none =>
      by_cases hd : (s.data ++ (wordsOfFiles env.fs env.args).filterMap parse).length = 0
      · simp only [Option.map_none', hd, if_true]
      · simp only [Option.map_none', hd, if_false]
  · rw [if_neg hargs, scanNumbers_nonstrict, openFailure_nil env hargs]
    simp only [wordsRead, if_neg hargs]
    by_cases hd : (s.data ++ env.stdin.filterMap parse).length = 0
    · simp only [hd, if_true]
    · simp only [hd, if_false]

/-- A non-strict run in closed form. -/
theorem main_nonstrict (parse : String → Option ℚ) (sqrt : ℚ → ℚ) (env : Env)
    (h : env.flags.fStrict = false) :
    main parse sqrt env
      = match openFailure env with
        | some p => { stdout := warnings parse (wordsRead env), fatal := some p }
        | none =>
          if ((wordsRead env).filterMap parse).length = 0 then
            { stdout := warnings parse (wordsRead env),
              fatal := some (.message "No numbers given") }
          else
            match dispData sqrt env.flags ((wordsRead env).filterMap parse) with
            | .error p => { stdout := warnings parse (wordsRead env), fatal := some p }
            | .ok rows =>
              { stdout := warnings parse (wordsRead env) ++ [.table rows], fatal := none } := by
  unfold main
  rw [loadData_nonstrict parse env _ h]
  cases openFailure env with
  | some p => simp
  | none =>
    by_cases hd : ((wordsRead env).filterMap parse).length = 0
    · simp [hd]
    · simp only [List.nil_append, hd, if_false]

theorem wordsRead_clean {α : Type} (parse : String → Option α) (env : Env) :
    wordsRead (env.clean parse) = (wordsRead env).filter (fun t => (parse t).isSome) := by
  have hf : ∀ args : List String,
      wordsOfFiles (env.clean parse).fs args
        = (wordsOfFiles env.fs args).filter (fun t => (parse t).isSome) := by
    intro args
    induction args with
    | nil => rfl
    | cons name names ih =>
      cases hn : env.fs name with
      | none => simp [wordsOfFiles, Env.clean, hn]
      | some fp =>
        have ih2 := ih
        simp only [Env.clean] at ih2
        simp [wordsOfFiles, Env.clean, hn, List.filter_append, ih2]
  unfold wordsRead
  by_cases hargs : env.args.length > 0
  · have h2 : (env.clean parse).args.length > 0 := hargs
    rw [if_pos hargs, if_pos h2]
    exact hf env.args
  · have h2 : ¬ (env.clean parse).args.length > 0 := hargs
    rw [if_neg hargs, if_neg h2]
    rfl

theorem openFailure_clean {α : Type} (parse : String → Option α) (env : Env) :
    openFailure (env.clean parse) = openFailure env := by
  have : (fun name => ((env.clean parse).fs name).isNone) = (fun name => (env.fs name).isNone) := by
    funext name
    cases hn : env.fs name <;> simp [Env.clean, hn]
  simp only [openFailure, this]
  rfl

/-- A non-strict run writes its warnings to standard output and then goes on
as the run on the cleaned input does. -/
theorem main_clean (parse : String → Option ℚ) (sqrt : ℚ → ℚ) (env : Env)
    (h : env.flags.fStrict = false) :
    (main parse sqrt env).stdout
      = warnings parse (wordsRead env) ++ (main parse sqrt (env.clean parse)).stdout ∧
    (main parse sqrt env).fatal = (main parse sqrt (env.clean parse)).fatal := by
  have h2 : (env.clean parse).flags.fStrict = false := h
  have hfl : (env.clean parse).flags = env.flags := rfl
  rw [main_nonstrict parse sqrt env h, main_nonstrict parse sqrt _ h2, wordsRead_clean,
    openFailure_clean, warnings_clean, filterMap_clean, hfl]
  cases openFailure env with
  | some p => simp
  | none =>
    by_cases hd : ((wordsRead env).filterMap parse).length = 0
    · simp [hd]
    · simp only [hd, if_false]
      cases dispData sqrt env.flags ((wordsRead env).filterMap parse) <;> simp

theorem mem_wordsOfFiles (fs : String → Option (List String)) (args : List String)
    (hopen : ∀ name ∈ args, fs name ≠ none) (t : String) :
    t ∈ wordsOfFiles fs args ↔ ∃ name ∈ args, ∃ fp, fs name = some fp ∧ t ∈ fp := by
  induction args with
  | nil => simp [wordsOfFiles]
  | cons name names ih =>
    have ih2 := ih (fun n hn => hopen n (List.mem_cons_of_mem _ hn))
    cases hn : fs name with
    | none => exact absurd hn (hopen name (List.mem_cons_self _ _))
    | some fp =>
      simp only [wordsOfFiles, hn, List.mem_append, ih2, List.mem_cons]
      constructor
      · rintro (h | ⟨n, hmem, fp2, h1, h2⟩)
        · exact ⟨name, Or.inl rfl, fp, hn, h⟩
        · exact ⟨n, Or.inr hmem, fp2, h1, h2⟩
      · rintro ⟨n, (rfl | hmem), fp2, h1, h2⟩
        · rw [hn] at h1
          cases h1
          exact Or.inl h2
        · exact Or.inr ⟨n, hmem, fp2, h1, h2⟩

theorem wordsOfFiles_open (fs : String → Option (List String)) (args : List String)
    (hopen : ∀ name ∈ args, fs name ≠ none) :
    wordsOfFiles fs args = (args.map (fun name => (fs name).getD [])).flatten := by
  induction args with
  | nil => rfl
  | cons name names ih =>
    have ih2 := ih (fun n hn => hopen n (List.mem_cons_of_mem _ hn))
    cases hn : fs name with
    | none => exact absurd hn (hopen name (List.mem_cons_self _ _))
    | some fp => simp [wordsOfFiles, hn, ih2]

theorem find_unopenable_none (fs : String → Option (List String)) (args : List String)
    (hopen : ∀ name ∈ args, fs name ≠ none) :
    args.find? (fun name => (fs name).isNone) = none := by
  rw [List.find?_eq_none]
  intro name hmem
  cases hn : fs name with
  | none => exact absurd hn (hopen name hmem)
  | some fp => simp

/-- C7: in non-strict mode `scanNumbers` keeps the values already in the
sequence, appends the parsed value of every word that parses, in order of
occurrence, and prints one warning naming each word it skips; over several
files that can all be opened the sequence that results is the one held before
followed by the per-file results, in the order the files are named. -/
theorem scan_appends {α : Type} (parse : String → Option α)
    (fs : String → Option (List String)) (args toks : List String) (s : St α)
    (hopen : ∀ name ∈ args, fs name ≠ none) :
    scanNumbers parse false toks s
      = ({ data := s.data ++ toks.filterMap parse,
           stdout := s.stdout ++ (toks.filter (fun t => (parse t).isNone)).map
             (fun t => Out.text ("warning: invalid input " ++ t ++ "\n")) }, none) ∧
    (loadFiles parse false fs args s).1.data
      = s.data ++ (args.map (fun name =>
          (scanNumbers parse false ((fs name).getD []) { data := [], stdout := [] }).1.data)).flatten ∧
    (loadFiles parse false fs args s).2 = none := by
  refine ⟨scanNumbers_nonstrict parse toks s, ?_, ?_⟩
  · rw [loadFiles_nonstrict, wordsOfFiles_open fs args hopen]
    simp only [scanNumbers_nonstrict, List.nil_append]
    congr 1
    clear hopen
    induction args with
    | nil => rfl
    | cons name names ih => simp [List.filterMap_append, ih]
  · rw [loadFiles_nonstrict, find_unopenable_none fs args hopen]
    rfl

theorem scan_appends_witness :
    (∀ name ∈ ["a", "b"],
      (fun name : String => if name = "a" then some ["1", "x"] else some ["2"]) name ≠ none) ∧
    (scanNumbers parseSample false ["1", "abc", "2"] { data := [5], stdout := [] }
      = ({ data := [5] ++ ["1", "abc", "2"].filterMap parseSample,
           stdout := [] ++ (["1", "abc", "2"].filter (fun t => (parseSample t).isNone)).map
             (fun t => Out.text ("warning: invalid input " ++ t ++ "\n")) }, none) ∧
    (loadFiles parseSample false
        (fun name : String => if name = "a" then some ["1", "x"] else some ["2"])
        ["a", "b"] { data := [5], stdout := [] }).1.data
      = [5] ++ (["a", "b"].map (fun name =>
          (scanNumbers parseSample false
            (((fun name : String => if name = "a" then some ["1", "x"] else some ["2"]) name).getD [])
            { data := [], stdout := [] }).1.data)).flatten ∧
    (loadFiles parseSample false
        (fun name : String => if name = "a" then some ["1", "x"] else some ["2"])
        ["a", "b"] { data := [5], stdout := [] }).2 = none) :=
  ⟨by intro name _; by_cases h : name = "a" <;> simp [h],
   scan_appends parseSample _ ["a", "b"] ["1", "abc", "2"] { data := [5], stdout := [] }
     (by intro name _; by_cases h : name = "a" <;> simp [h])⟩

/-- The scanner in the two modes: in strict mode it fails exactly when the
stream holds a word that does not parse, with a panic naming the first such
word (`abc` in `1 abc 2`); in non-strict mode it never fails and keeps exactly
the valid numbers. -/
theorem scanNumbers_modes {α : Type} (parse : String → Option α) (toks : List String)
    (s : St α) :
    ((scanNumbers parse true toks s).2 ≠ none ↔ ∃ t ∈ toks, parse t = none) ∧
    (scanNumbers parse true toks s).2
      = (toks.find? (fun t => (parse t).isNone)).map
          (fun t => Panic.message ("invalid input " ++ t)) ∧
    (scanNumbers parseSample true ["1", "abc", "2"] { data := [], stdout := [] }).2
      = some (Panic.message "invalid input abc") ∧
    (scanNumbers parse false toks s).2 = none ∧
    (scanNumbers parse false toks s).1.data = s.data ++ toks.filterMap parse := by
  refine ⟨?_, ?_, ?_, ?_, ?_⟩
  · rw [scanNumbers_strict]
    simp only [ne_eq, Option.map_eq_none', List.find?_eq_none, not_forall]
    constructor
    · rintro ⟨t, ht, h⟩
      refine ⟨t, ht, ?_⟩
      cases hp : parse t with
      | none => rfl
      | some x => simp [hp] at h
    · rintro ⟨t, ht, h⟩
      exact ⟨t, ht, by simp [h]⟩
  · rw [scanNumbers_strict]
  · rw [scanNumbers_strict]
    decide
  · rw [scanNumbers_nonstrict]
  · rw [scanNumbers_nonstrict]

/-! ## The run -/

theorem filterMap_length_eq_zero {α : Type} (parse : String → Option α) (toks : List String) :
    (toks.filterMap parse).length = 0 ↔ ∀ t ∈ toks, parse t = none := by
  induction toks with
  | nil => simp
  | cons t rest ih =>
    cases h : parse t with
    | none => simp [List.filterMap_cons, h, ih]
    | some x => simp [List.filterMap_cons, h]

theorem table_not_mem_warnings {α : Type} (parse : String → Option α) (toks : List String)
    (rows : List (List Cell)) : Out.table rows ∉ warnings parse toks := by
  simp [warnings]

/-- On one value `dispData` panics inside `quantile`, before anything is flushed. -/
theorem dispData_singleton (sqrt : ℚ → ℚ) (flags : Flags) (x : ℚ) :
    dispData sqrt flags [x] = .error (.indexOutOfRange (-1) 0) := by
  simp [dispData, quantile, sortFloat64s, medSorted_nil, bind, Except.bind]

/-- On two or more values `dispData` returns: the header row unless it is
suppressed, then one data row. -/
theorem dispData_returns (sqrt : ℚ → ℚ) (flags : Flags) (data : List ℚ)
    (h : 2 ≤ data.length) :
    ∃ header row, dispData sqrt flags data = .ok (header ++ [row]) ∧
      header = (if flags.fNoHead then []
        else if flags.fComplete then [headerComplete] else [headerCompact]) ∧
      row.length = (if flags.fComplete then 10 else 6) := by
  obtain ⟨q1, med, q3, h1, h2, h3⟩ := quantile_medians data h
  have hq := quantile_eq data q1 med q3 h1 h2 h3
  have hne : sortFloat64s data ≠ [] := by
    intro e
    have := sortFloat64s_length data
    rw [e] at this
    simp at this
    omega
  obtain ⟨mn, hmn, -⟩ := min_returns _ hne
  obtain ⟨mx, hmx, -⟩ := max_returns _ hne
  cases hh : flags.fNoHead <;> cases hc : flags.fComplete <;>
    simp only [dispData, hq, hmn, hmx, hh, hc, bind, Except.bind, pure, Except.pure]
  · exact ⟨[headerCompact], _, rfl, rfl, rfl⟩
  · exact ⟨[headerComplete], _, rfl, rfl, rfl⟩
  · exact ⟨[], _, rfl, rfl, rfl⟩
  · exact ⟨[], _, rfl, rfl, rfl⟩

/-- A non-strict run ends in a fatal error exactly when a named file cannot be
opened, no number was read, or exactly one number was read. -/
theorem main_nonstrict_fatal_iff (parse : String → Option ℚ) (sqrt : ℚ → ℚ) (env : Env)
    (h : env.flags.fStrict = false) :
    (main parse sqrt env).fatal ≠ none ↔
      openFailure env ≠ none ∨ ((wordsRead env).filterMap parse).length = 0 ∨
        ((wordsRead env).filterMap parse).length = 1 := by
  rw [main_nonstrict parse sqrt env h]
  cases hof : openFailure env with
  | some p => simp
  | none =>
    by_cases hd : ((wordsRead env).filterMap parse).length = 0
    · simp [hd]
    · simp only [hd, if_false, ne_eq, not_true_eq_false, false_or]
      by_cases h1 : ((wordsRead env).filterMap parse).length = 1
      · obtain ⟨x, hx⟩ := List.length_eq_one.1 h1
        rw [hx, dispData_singleton]
        simp
      · obtain ⟨header, row, hr, -, -⟩ := dispData_returns sqrt env.flags
          ((wordsRead env).filterMap parse) (by omega)
        rw [hr]
        simp [h1]

/-- C2 (fails on the code): a run that reads exactly one number, from standard
input with no file named, ends in a fatal error, an index out of range raised
inside `quantile`, and prints no row, although every source was opened, every
word parsed and a number was read.  This is the defect of C1, reached through
`dispData`. -/
theorem main_single_number_panics (sqrt : ℚ → ℚ) (flags : Flags)
    (fs : String → Option (List String)) (text : String) (x : ℚ) :
    main (fun _ => some x) sqrt { flags := flags, args := [], fs := fs, stdin := [text] }
      = { stdout := [], fatal := some (.indexOutOfRange (-1) 0) } := by
  simp [main, loadData, scanNumbers, dispData, quantile, sortFloat64s, medSorted_nil, bind,
    Except.bind]

/-- C9: when every named file can be opened and strict mode is off, `loadData`
fails with `No numbers given` exactly when no word of any source parses, and it
fails in no other way; two files of which only the second holds a number load
without failure; and when it fails the run ends with that panic and writes no
table. -/
theorem noNumbers_iff (parse : String → Option ℚ) (sqrt : ℚ → ℚ) (env : Env)
    (hopen : ∀ name ∈ env.args, env.fs name ≠ none) (hstrict : env.flags.fStrict = false) :
    ((loadData parse env { data := [], stdout := [] }).2 = some (.message "No numbers given") ↔
      (if env.args.length > 0 then
        ∀ name ∈ env.args, ∀ fp, env.fs name = some fp → ∀ t ∈ fp, parse t = none
      else ∀ t ∈ env.stdin, parse t = none)) ∧
    ((loadData parse env { data := [], stdout := [] }).2 = none ∨
      (loadData parse env { data := [], stdout := [] }).2
        = some (.message "No numbers given")) ∧
    ((loadData parse env { data := [], stdout := [] }).2 = some (.message "No numbers given") →
      (main parse sqrt env).fatal = some (.message "No numbers given") ∧
      ∀ rows, Out.table rows ∉ (main parse sqrt env).stdout) ∧
    (loadData parseSample
      { flags := { fNoHead := false, fComplete := false, fStrict := false },
        args := ["a", "b"],
        fs := fun name => if name = "a" then some ["x"] else some ["5"],
        stdin := [] }
      { data := [], stdout := [] }).2 = none := by
  have hof : openFailure env = none := by
    simp only [openFailure, find_unopenable_none env.fs env.args hopen]
    rfl
  have hload := loadData_nonstrict parse env { data := [], stdout := [] } hstrict
  rw [hof] at hload
  simp only [List.nil_append] at hload
  have hmain := main_nonstrict parse sqrt env hstrict
  rw [hof] at hmain
  simp only at hmain
  have hwords : (∀ t ∈ wordsRead env, parse t = none) ↔
      (if env.args.length > 0 then
        ∀ name ∈ env.args, ∀ fp, env.fs name = some fp → ∀ t ∈ fp, parse t = none
      else ∀ t ∈ env.stdin, parse t = none) := by
    unfold wordsRead
    by_cases hargs : env.args.length > 0
    · simp only [if_pos hargs]
      constructor
      · intro h name hn fp hfp t ht
        exact h t ((mem_wordsOfFiles env.fs env.args hopen t).2 ⟨name, hn, fp, hfp, ht⟩)
      · intro h t ht
        obtain ⟨name, hn, fp, hfp, ht2⟩ := (mem_wordsOfFiles env.fs env.args hopen t).1 ht
        exact h name hn fp hfp t ht2
    · simp only [if_neg hargs]
  by_cases hd : ((wordsRead env).filterMap parse).length = 0
  · have hall := (filterMap_length_eq_zero parse (wordsRead env)).1 hd
    rw [if_pos hd] at hload hmain
    rw [hload, hmain]
    exact ⟨⟨fun _ => hwords.1 hall, fun _ => rfl⟩, Or.inr rfl,
      fun _ => ⟨rfl, fun rows => table_not_mem_warnings parse _ rows⟩, by decide⟩
  · have hnall : ¬ ∀ t ∈ wordsRead env, parse t = none :=
      fun h => hd ((filterMap_length_eq_zero parse (wordsRead env)).2 h)
    rw [if_neg hd] at hload
    rw [hload]
    exact ⟨⟨fun h => absurd h (by simp), fun h => absurd (hwords.2 h) hnall⟩, Or.inl rfl,
      fun h => absurd h (by simp), by decide⟩

theorem noNumbers_iff_witness :
    (∀ name ∈ (envStdin ["x", "y"]).args, (envStdin ["x", "y"]).fs name ≠ none) ∧
    (envStdin ["x", "y"]).flags.fStrict = false ∧
    (main parseSample id (envStdin ["x", "y"])).fatal = some (.message "No numbers given") := by
  have h := noNumbers_iff parseSample id (envStdin ["x", "y"])
    (by intro name hn; simp [envStdin] at hn) rfl
  refine ⟨by intro name hn; simp [envStdin] at hn, rfl, (h.2.2.1 (h.1.2 ?_)).1⟩
  simp [envStdin, parseSample]

/-- C10 (fails as stated): on the words `1 abc 2` from standard input, in
non-strict mode, the run does not write to standard output what it writes once
`abc` is removed. -/
theorem stdout_differs_with_invalid_word :
    (main parseSample id (envStdin ["1", "abc", "2"])).stdout
    ≠ (main parseSample id (Env.clean parseSample (envStdin ["1", "abc", "2"]))).stdout := by
  intro h
  have hc := (main_clean parseSample id (envStdin ["1", "abc", "2"]) rfl).1
  rw [h] at hc
  have hw : warnings parseSample (wordsRead (envStdin ["1", "abc", "2"]))
      = [Out.text "warning: invalid input abc\n"] := by decide
  rw [hw] at hc
  have hlen := congrArg List.length hc
  simp at hlen

/-- C10 (amended): in non-strict mode the warnings go to standard output, the
channel of the table, ahead of it: what the run writes to standard output is
one warning for each invalid word it reads, in order, followed by exactly what
it writes for the same input with the invalid words removed, and the two runs
end the same way. -/
theorem stdout_is_warnings_then_clean (parse : String → Option ℚ) (sqrt : ℚ → ℚ) (env : Env)
    (hstrict : env.flags.fStrict = false) :
    (main parse sqrt env).stdout
      = (((wordsRead env).filter (fun t => (parse t).isNone)).map
          (fun t => Out.text ("warning: invalid input " ++ t ++ "\n")))
        ++ (main parse sqrt (env.clean parse)).stdout ∧
    (main parse sqrt env).fatal = (main parse sqrt (env.clean parse)).fatal :=
  main_clean parse sqrt env hstrict

theorem stdout_is_warnings_then_clean_witness :
    (envStdin ["1", "abc", "2"]).flags.fStrict = false ∧
    (main parseSample id (envStdin ["1", "abc", "2"])).stdout
      = (((wordsRead (envStdin ["1", "abc", "2"])).filter
            (fun t => (parseSample t).isNone)).map
          (fun t => Out.text ("warning: invalid input " ++ t ++ "\n")))
        ++ (main parseSample id (Env.clean parseSample (envStdin ["1", "abc", "2"]))).stdout :=
  ⟨rfl, (stdout_is_warnings_then_clean parseSample id (envStdin ["1", "abc", "2"]) rfl).1⟩

/-! ## Sum, mean and variance -/

/-- The accumulation loop of `variance`, started from `x`. -/
theorem foldl_sq (l : List ℚ) (avg x : ℚ) :
    l.foldl (fun x r => x + (r - avg) * (r - avg)) x
      = x + (l.map (fun r => (r - avg) * (r - avg))).sum := by
  induction l generalizing x with
  | nil => simp
  | cons a t ih => simp only [List.foldl_cons, List.map_cons, List.sum_cons, ih]; ring

theorem variance_eq (S : List ℚ) :
    variance S
      = (S.map (fun r => (r - average S) * (r - average S))).sum / (S.length : ℚ) := by
  simp [variance, foldl_sq]

theorem length_cast_pos (S : List ℚ) (h : S ≠ []) : (0 : ℚ) < (S.length : ℚ) := by
  exact_mod_cast List.length_pos.2 h

theorem sum_sq_nonneg (l : List ℚ) (c : ℚ) :
    0 ≤ (l.map (fun r => (r - c) * (r - c))).sum := by
  induction l with
  | nil => simp
  | cons a t ih =>
    simp only [List.map_cons, List.sum_cons]
    have := mul_self_nonneg (a - c)
    linarith

theorem sum_sq_eq_zero_iff (l : List ℚ) (c : ℚ) :
    (l.map (fun r => (r - c) * (r - c))).sum = 0 ↔ ∀ r ∈ l, r = c := by
  induction l with
  | nil => simp
  | cons a t ih =>
    simp only [List.map_cons, List.sum_cons, List.mem_cons, forall_eq_or_imp]
    have h1 := mul_self_nonneg (a - c)
    have h2 := sum_sq_nonneg t c
    constructor
    · intro h
      have ha : (a - c) * (a - c) = 0 := by linarith
      have ht : (t.map (fun r => (r - c) * (r - c))).sum = 0 := by linarith
      refine ⟨?_, ih.1 ht⟩
      have := mul_self_eq_zero.1 ha
      linarith
    · rintro ⟨ha, ht⟩
      rw [ih.2 ht, ha]
      simp

/-- A slice whose elements all equal `c` has mean `c`. -/
theorem average_const (S : List ℚ) (c : ℚ) (h : S ≠ []) (hc : ∀ x ∈ S, x = c) :
    average S = c := by
  have hn := length_cast_pos S h
  have h1 := length_mul_le_sum S c (fun x hx => le_of_eq (hc x hx).symm)
  have h2 := sum_le_length_mul S c (fun x hx => le_of_eq (hc x hx))
  rw [average, sum_eq, le_antisymm h2 h1]
  field_simp

/-- C11: on a non-empty sequence the sum, the left-to-right accumulation of
the elements from zero, is the mean times the length:
`sum(S) = average(S) * len(S)`. -/
theorem sum_eq_average_mul_len (S : List ℚ) (h : S ≠ []) :
    sum S = average S * (S.length : ℚ) ∧
    sum S = S.foldl (fun acc r => acc + r) 0 ∧
    sum S = S.sum := by
  have hn := length_cast_pos S h
  refine ⟨?_, rfl, sum_eq S⟩
  rw [average]
  field_simp

theorem sum_eq_average_mul_len_witness :
    ([3, 1, 2] : List ℚ) ≠ [] ∧
    (sum [3, 1, 2] = average [3, 1, 2] * (([3, 1, 2] : List ℚ).length : ℚ) ∧
     sum [3, 1, 2] = ([3, 1, 2] : List ℚ).foldl (fun acc r => acc + r) 0 ∧
     sum [3, 1, 2] = ([3, 1, 2] : List ℚ).sum) :=
  ⟨by simp, sum_eq_average_mul_len [3, 1, 2] (by simp)⟩

/-- C12: on a non-empty sequence, whatever function stands for the square
root, `stddev(S) = sqrt(variance(S))` and `stderr(S) = stddev(S) / sqrt(len(S))`,
and the variance is the population variance
`(1/n) * Σ (x_i - average(S))^2`, with divisor `n`. -/
theorem stddev_stderr_variance (sqrt : ℚ → ℚ) (S : List ℚ) (_h : S ≠ []) :
    stddev sqrt S = sqrt (variance S) ∧
    stderr sqrt S = stddev sqrt S / sqrt (S.length : ℚ) ∧
    variance S = (1 / (S.length : ℚ)) * (S.map (fun x => (x - average S) ^ 2)).sum := by
  refine ⟨rfl, rfl, ?_⟩
  rw [variance_eq]
  have e : (fun x : ℚ => (x - average S) ^ 2)
      = (fun r : ℚ => (r - average S) * (r - average S)) := by
    funext x; ring
  rw [e]
  ring

theorem stddev_stderr_variance_witness :
    ([1, 3] : List ℚ) ≠ [] ∧
    (stddev id [1, 3] = id (variance [1, 3]) ∧
     stderr id [1, 3] = stddev id [1, 3] / id ((([1, 3] : List ℚ).length : ℚ)) ∧
     variance [1, 3] = (1 / (([1, 3] : List ℚ).length : ℚ))
       * (([1, 3] : List ℚ).map (fun x => (x - average [1, 3]) ^ 2)).sum) :=
  ⟨by simp, stddev_stderr_variance id [1, 3] (by simp)⟩

/-- In exact arithmetic, on a non-empty sequence the variance is non-negative,
and it is zero exactly when all the elements are equal. -/
theorem variance_nonneg_zero_iff (S : List ℚ) (h : S ≠ []) :
    0 ≤ variance S ∧ (variance S = 0 ↔ ∀ x ∈ S, ∀ y ∈ S, x = y) := by
  have hn := length_cast_pos S h
  rw [variance_eq]
  refine ⟨div_nonneg (sum_sq_nonneg S _) (le_of_lt hn), ?_⟩
  rw [div_eq_zero_iff, sum_sq_eq_zero_iff]
  constructor
  · rintro (hall | h0)
    · intro x hx y hy
      rw [hall x hx, hall y hy]
    · exact absurd h0 (ne_of_gt hn)
  · intro hall
    left
    cases S with
    | nil => exact absurd rfl h
    | cons a t =>
      have hc : ∀ x ∈ a :: t, x = a := fun x hx => hall x hx a (List.mem_cons_self _ _)
      rw [average_const (a :: t) a h hc]
      exact hc

/-! ## Extremes are attained -/

theorem foldl_min_mem (l : List ℚ) (x : ℚ) :
    l.foldl (fun x r => if x > r then r else x) x = x ∨
    l.foldl (fun x r => if x > r then r else x) x ∈ l := by
  induction l generalizing x with
  | nil => simp
  | cons a t ih =>
    simp only [List.foldl_cons, List.mem_cons]
    rcases ih (if x > a then a else x) with h | h
    · rw [h]
      split_ifs
      · exact Or.inr (Or.inl rfl)
      · exact Or.inl rfl
    · exact Or.inr (Or.inr h)

theorem foldl_max_mem (l : List ℚ) (x : ℚ) :
    l.foldl (fun x r => if x < r then r else x) x = x ∨
    l.foldl (fun x r => if x < r then r else x) x ∈ l := by
  induction l generalizing x with
  | nil => simp
  | cons a t ih =>
    simp only [List.foldl_cons, List.mem_cons]
    rcases ih (if x < a then a else x) with h | h
    · rw [h]
      split_ifs
      · exact Or.inr (Or.inl rfl)
      · exact Or.inl rfl
    · exact Or.inr (Or.inr h)

/-- On a non-empty slice `min` returns the least element. -/
theorem min_least (S : List ℚ) (h : S ≠ []) :
    ∃ lo, min S = .ok lo ∧ lo ∈ S ∧ ∀ x ∈ S, lo ≤ x := by
  cases S with
  | nil => exact absurd rfl h
  | cons a t =>
    refine ⟨(a :: t).foldl (fun x r => if x > r then r else x) a, ?_, ?_,
      (foldl_min_le (a :: t) a).2⟩
    · simp [min, index, bind, Except.bind, pure, Except.pure]
    · rcases foldl_min_mem (a :: t) a with e | e
      · rw [e]; exact List.mem_cons_self _ _
      · exact e

/-- On a non-empty slice `max` returns the greatest element. -/
theorem max_greatest (S : List ℚ) (h : S ≠ []) :
    ∃ hi, max S = .ok hi ∧ hi ∈ S ∧ ∀ x ∈ S, x ≤ hi := by
  cases S with
  | nil => exact absurd rfl h
  | cons a t =>
    refine ⟨(a :: t).foldl (fun x r => if x < r then r else x) a, ?_, ?_,
      (le_foldl_max (a :: t) a).2⟩
    · simp [max, index, bind, Except.bind, pure, Except.pure]
    · rcases foldl_max_mem (a :: t) a with e | e
      · rw [e]; exact List.mem_cons_self _ _
      · exact e

/-- C16: on a non-empty sequence `min` returns an element of the sequence that
is `≤` every element, and `max` an element that is `≥` every element. -/
theorem min_max_attained (S : List ℚ) (h : S ≠ []) :
    ∃ lo hi, min S = .ok lo ∧ max S = .ok hi ∧
      lo ∈ S ∧ (∀ x ∈ S, lo ≤ x) ∧ hi ∈ S ∧ (∀ x ∈ S, x ≤ hi) := by
  obtain ⟨lo, h1, h2, h3⟩ := min_least S h
  obtain ⟨hi, h4, h5, h6⟩ := max_greatest S h
  exact ⟨lo, hi, h1, h4, h2, h3, h5, h6⟩

theorem min_max_attained_witness :
    ([3, 1, 2] : List ℚ) ≠ [] ∧
    ∃ lo hi, min [3, 1, 2] = .ok lo ∧ max [3, 1, 2] = .ok hi ∧
      lo ∈ ([3, 1, 2] : List ℚ) ∧ (∀ x ∈ ([3, 1, 2] : List ℚ), lo ≤ x) ∧
      hi ∈ ([3, 1, 2] : List ℚ) ∧ (∀ x ∈ ([3, 1, 2] : List ℚ), x ≤ hi) :=
  ⟨by simp, min_max_attained [3, 1, 2] (by simp)⟩

/-! ## Order of the input -/

theorem min_perm (S S' : List ℚ) (hp : S'.Perm S) : min S' = min S := by
  by_cases h : S = []
  · subst h
    rw [List.Perm.eq_nil hp]
  · have h' : S' ≠ [] := fun e => h (by rw [e] at hp; exact (List.Perm.nil_eq hp).symm)
    obtain ⟨a, ha, hma, hla⟩ := min_least S h
    obtain ⟨b, hb, hmb, hlb⟩ := min_least S' h'
    rw [ha, hb]
    congr 1
    exact le_antisymm (hlb a (hp.mem_iff.2 hma)) (hla b (hp.mem_iff.1 hmb))

theorem max_perm (S S' : List ℚ) (hp : S'.Perm S) : max S' = max S := by
  by_cases h : S = []
  · subst h
    rw [List.Perm.eq_nil hp]
  · have h' : S' ≠ [] := fun e => h (by rw [e] at hp; exact (List.Perm.nil_eq hp).symm)
    obtain ⟨a, ha, hma, hla⟩ := max_greatest S h
    obtain ⟨b, hb, hmb, hlb⟩ := max_greatest S' h'
    rw [ha, hb]
    congr 1
    exact le_antisymm (hla b (hp.mem_iff.1 hmb)) (hlb a (hp.mem_iff.2 hma))

theorem sum_perm (S S' : List ℚ) (hp : S'.Perm S) : sum S' = sum S := by
  rw [sum_eq, sum_eq, hp.sum_eq]

theorem average_perm (S S' : List ℚ) (hp : S'.Perm S) : average S' = average S := by
  rw [average, average, sum_perm S S' hp, hp.length_eq]

theorem variance_perm (S S' : List ℚ) (hp : S'.Perm S) : variance S' = variance S := by
  rw [variance_eq, variance_eq, average_perm S S' hp, hp.length_eq,
    (hp.map (fun r => (r - average S) * (r - average S))).sum_eq]

theorem stddev_perm (sqrt : ℚ → ℚ) (S S' : List ℚ) (hp : S'.Perm S) :
    stddev sqrt S' = stddev sqrt S := by
  rw [stddev, stddev, variance_perm S S' hp]

theorem stderr_perm (sqrt : ℚ → ℚ) (S S' : List ℚ) (hp : S'.Perm S) :
    stderr sqrt S' = stderr sqrt S := by
  rw [stderr, stderr, stddev_perm sqrt S S' hp, hp.length_eq]

theorem sortFloat64s_of_perm (S S' : List ℚ) (hp : S'.Perm S) :
    sortFloat64s S' = sortFloat64s S :=
  sort_unique S (sortFloat64s S') (sortFloat64s_sorted S') ((sortFloat64s_perm S').trans hp)

theorem quantile_perm (S S' : List ℚ) (hp : S'.Perm S) : quantile S' = quantile S := by
  simp only [quantile, sortFloat64s_of_perm S S' hp]

/-- When `quantile` returns, the slice it leaves is the ascending sort. -/
theorem quantile_ok (S T : List ℚ) (r : ℚ × ℚ × ℚ) (h : quantile S = .ok (r, T)) :
    T = sortFloat64s S := by
  simp only [quantile, bind, Except.bind, pure, Except.pure] at h
  cases h1 : medSorted ((sortFloat64s S).take ((sortFloat64s S).length / 2)) with
  | error e => rw [h1] at h; exact absurd h (by simp)
  | ok q1 =>
    rw [h1] at h
    cases h2 : medSorted (sortFloat64s S) with
    | error e => rw [h2] at h; exact absurd h (by simp)
    | ok med =>
      rw [h2] at h
      cases h3 : medSorted ((sortFloat64s S).drop ((sortFloat64s S).length / 2)) with
      | error e => rw [h3] at h; exact absurd h (by simp)
      | ok q3 =>
        rw [h3] at h
        simp only [Except.ok.injEq, Prod.mk.injEq] at h
        exact h.2.symm

/-- C13: when `quantile` returns, a second call on the slice as the first call
left it returns the same three values and leaves the slice unchanged. -/
theorem quantile_idempotent (S T : List ℚ) (r : ℚ × ℚ × ℚ)
    (h : quantile S = .ok (r, T)) : quantile T = .ok (r, T) := by
  have hT := quantile_ok S T r h
  rw [hT, quantile_perm S (sortFloat64s S) (sortFloat64s_perm S), ← hT]
  exact h

theorem quantile_idempotent_witness :
    quantile [2, 1] = .ok ((1, 3 / 2, 2), [1, 2]) ∧
    quantile [1, 2] = .ok ((1, 3 / 2, 2), [1, 2]) := by
  have hs : sortFloat64s [2, 1] = [1, 2] := by decide
  have h0 : quantile [2, 1] = .ok ((1, 3 / 2, 2), [1, 2]) := by
    have e := quantile_eq [2, 1] 1 (3 / 2) 2
      (by rw [hs]; exact medSorted_odd [1] 1 (by decide) (by simp))
      (by rw [hs]
          have := medSorted_even [1, 2] 1 2 (by decide) (by decide) (by simp) (by simp)
          norm_num at this
          simpa using this)
      (by rw [hs]; exact medSorted_odd [2] 2 (by decide) (by simp))
    rw [hs] at e
    exact e
  exact ⟨h0, quantile_idempotent [2, 1] [1, 2] (1, 3 / 2, 2) h0⟩

/-- In an ascending list an element at a lower position is `≤` one at a
higher position. -/
theorem sorted_getElem_le (T : List ℚ) (hs : T.Sorted (· ≤ ·)) (i j : Nat) (a b : ℚ)
    (hij : i ≤ j) (ha : T[i]? = some a) (hb : T[j]? = some b) : a ≤ b := by
  rcases Nat.eq_or_lt_of_le hij with e | hlt
  · subst e
    rw [ha] at hb
    exact le_of_eq (Option.some.inj hb)
  · obtain ⟨hi, rfl⟩ := List.getElem?_eq_some.1 ha
    obtain ⟨hj, rfl⟩ := List.getElem?_eq_some.1 hb
    exact (List.pairwise_iff_getElem.1 hs) i j hi hj hlt

/-- C14: when `quantile` returns, the caller's slice holds the ascending sort
of what it held: the same length, the same multiset of values, every element
`≤` its successor; it is the only such arrangement, so nothing else changed. -/
theorem quantile_sorts (S T : List ℚ) (r : ℚ × ℚ × ℚ) (h : quantile S = .ok (r, T)) :
    T.length = S.length ∧ T.Perm S ∧ (T : Multiset ℚ) = (S : Multiset ℚ) ∧
    T.Sorted (· ≤ ·) ∧ List.Chain' (· ≤ ·) T ∧
    (∀ i a b, T[i]? = some a → T[i + 1]? = some b → a ≤ b) ∧
    ∀ T' : List ℚ, T'.Perm S → T'.Sorted (· ≤ ·) → T' = T := by
  have hT := quantile_ok S T r h
  subst hT
  have hs := sortFloat64s_sorted S
  have hp := sortFloat64s_perm S
  refine ⟨sortFloat64s_length S, hp, Multiset.coe_eq_coe.2 hp, hs,
    List.chain'_iff_pairwise.2 hs, ?_, ?_⟩
  · intro i a b ha hb
    exact sorted_getElem_le _ hs i (i + 1) a b (Nat.le_succ i) ha hb
  · intro T' hp' hs'
    exact sort_unique S T' hs' hp'

theorem quantile_sorts_witness :
    quantile [2, 1] = .ok ((1, 3 / 2, 2), [1, 2]) ∧
    ([1, 2] : List ℚ).length = ([2, 1] : List ℚ).length ∧
    ([1, 2] : List ℚ).Perm [2, 1] ∧ ([1, 2] : List ℚ).Sorted (· ≤ ·) := by
  have hs : sortFloat64s [2, 1] = [1, 2] := by decide
  have h0 : quantile [2, 1] = .ok ((1, 3 / 2, 2), [1, 2]) := by
    have e := quantile_eq [2, 1] 1 (3 / 2) 2
      (by rw [hs]; exact medSorted_odd [1] 1 (by decide) (by simp))
      (by rw [hs]
          have := medSorted_even [1, 2] 1 2 (by decide) (by decide) (by simp) (by simp)
          norm_num at this
          simpa using this)
      (by rw [hs]; exact medSorted_odd [2] 2 (by decide) (by simp))
    rw [hs] at e
    exact e
  have h := quantile_sorts [2, 1] [1, 2] (1, 3 / 2, 2) h0
  exact ⟨h0, h.1, h.2.1, h.2.2.2.1⟩

/-- C18: the statistics depend only on the multiset of values.  For a sequence
`S` of length at least two and a permutation `S'` of it, the count, `min`,
`max`, `sum`, `average`, `variance` and the whole result of `quantile` agree on
`S'` and `S`, and `quantile` returns; so the `min`, `max`, `sum`, `average`,
`stddev` and `stderr` taken of the slice as `quantile` left it are those of the
sequence in its original order. -/
theorem statistics_perm (sqrt : ℚ → ℚ) (S S' : List ℚ) (hp : S'.Perm S)
    (h2 : 2 ≤ S.length) :
    S'.length = S.length ∧ min S' = min S ∧ max S' = max S ∧ sum S' = sum S ∧
    average S' = average S ∧ variance S' = variance S ∧
    quantile S' = quantile S ∧
    (∃ q1 med q3 T, quantile S = .ok ((q1, med, q3), T) ∧
      T.length = S.length ∧ min T = min S ∧ max T = max S ∧ sum T = sum S ∧
      average T = average S ∧ stddev sqrt T = stddev sqrt S ∧
      stderr sqrt T = stderr sqrt S) := by
  refine ⟨hp.length_eq, min_perm S S' hp, max_perm S S' hp, sum_perm S S' hp,
    average_perm S S' hp, variance_perm S S' hp, quantile_perm S S' hp, ?_⟩
  obtain ⟨q1, med, q3, h1, hm, h3⟩ := quantile_medians S h2
  have hT := sortFloat64s_perm S
  exact ⟨q1, med, q3, sortFloat64s S, quantile_eq S q1 med q3 h1 hm h3, hT.length_eq,
    min_perm S _ hT, max_perm S _ hT, sum_perm S _ hT, average_perm S _ hT,
    stddev_perm sqrt S _ hT, stderr_perm sqrt S _ hT⟩

theorem statistics_perm_witness :
    ([2, 1, 3] : List ℚ).Perm [3, 1, 2] ∧ 2 ≤ ([3, 1, 2] : List ℚ).length ∧
    min [2, 1, 3] = min [3, 1, 2] ∧ quantile [2, 1, 3] = quantile [3, 1, 2] := by
  have hp : ([2, 1, 3] : List ℚ).Perm [3, 1, 2] := by decide
  have h := statistics_perm id [3, 1, 2] [2, 1, 3] hp (by decide)
  exact ⟨hp, by decide, h.2.1, h.2.2.2.2.2.2.1⟩

/-! ## Order of the quantiles -/

/-- The three medians of `quantile` around the two central elements `a` and `b`
of the sorted slice: `q1 ≤ a ≤ med ≤ b ≤ q3`, with `q1` and `q3` inside any
bounds of the elements. -/
theorem quantile_ordered (S : List ℚ) (lo hi : ℚ) (h2 : 2 ≤ S.length)
    (hlo : ∀ x ∈ S, lo ≤ x) (hhi : ∀ x ∈ S, x ≤ hi) :
    ∃ q1 med q3, quantile S = .ok ((q1, med, q3), sortFloat64s S) ∧
      lo ≤ q1 ∧ q1 ≤ med ∧ med ≤ q3 ∧ q3 ≤ hi := by
  have hn := sortFloat64s_length S
  have hs := sortFloat64s_sorted S
  have hp := sortFloat64s_perm S
  have hk1 : S.length / 2 - 1 < (sortFloat64s S).length := by omega
  have hk2 : S.length / 2 < (sortFloat64s S).length := by omega
  have ea := List.getElem?_eq_getElem hk1
  have eb := List.getElem?_eq_getElem hk2
  have hab := sorted_getElem_le _ hs _ _ _ _ (Nat.sub_le _ 1) ea eb
  -- the lower half lies below `a`
  have hL : ∀ x ∈ (sortFloat64s S).take (S.length / 2),
      x ≤ (sortFloat64s S)[S.length / 2 - 1] := by
    intro x hx
    obtain ⟨i, hi⟩ := List.mem_iff_getElem?.1 hx
    rw [List.getElem?_take] at hi
    by_cases hlt : i < S.length / 2
    · rw [if_pos hlt] at hi
      exact sorted_getElem_le _ hs i _ _ _ (by omega) hi ea
    · rw [if_neg hlt] at hi
      exact absurd hi (by simp)
  -- the upper half lies above `b`
  have hH : ∀ x ∈ (sortFloat64s S).drop (S.length / 2),
      (sortFloat64s S)[S.length / 2] ≤ x := by
    intro x hx
    obtain ⟨j, hj⟩ := List.mem_iff_getElem?.1 hx
    rw [List.getElem?_drop] at hj
    exact sorted_getElem_le _ hs _ _ _ _ (Nat.le_add_right _ j) eb hj
  obtain ⟨q1, e1, b1, b2⟩ := medSorted_bounds ((sortFloat64s S).take (S.length / 2)) lo _
    (by rw [List.length_take, hn]; omega)
    (fun x hx => hlo x (hp.mem_iff.1 (List.mem_of_mem_take hx))) hL
  obtain ⟨q3, e3, b3, b4⟩ := medSorted_bounds ((sortFloat64s S).drop (S.length / 2)) _ hi
    (by rw [List.length_drop, hn]; omega) hH
    (fun x hx => hhi x (hp.mem_iff.1 (List.mem_of_mem_drop hx)))
  rcases Nat.mod_two_eq_zero_or_one S.length with hev | hodd
  · have em := medSorted_even (sortFloat64s S) _ _ (by omega) (by rw [hn]; exact hev)
      (by rw [hn]; exact ea) (by rw [hn]; exact eb)
    refine ⟨q1, _, q3, quantile_eq S q1 _ q3 e1 em e3, b1, ?_, ?_, b4⟩
    · linarith
    · linarith
  · have hmid : (S.length - 1) / 2 = S.length / 2 := by omega
    have em := medSorted_odd (sortFloat64s S) _ (by rw [hn]; exact hodd)
      (by rw [hn, hmid]; exact eb)
    refine ⟨q1, _, q3, quantile_eq S q1 _ q3 e1 em e3, b1, ?_, b3, b4⟩
    linarith

/-- In exact arithmetic, on a sequence of length at least two `min`, `max` and
`quantile` return, and `min(S) ≤ q1 ≤ median ≤ q3 ≤ max(S)`. -/
theorem quantiles_between_extremes (S : List ℚ) (h2 : 2 ≤ S.length) :
    ∃ lo hi q1 med q3 T, min S = .ok lo ∧ max S = .ok hi ∧
      quantile S = .ok ((q1, med, q3), T) ∧
      lo ≤ q1 ∧ q1 ≤ med ∧ med ≤ q3 ∧ q3 ≤ hi := by
  have hne : S ≠ [] := by
    intro e
    rw [e] at h2
    simp at h2
  obtain ⟨lo, hlo, blo⟩ := min_returns S hne
  obtain ⟨hi, hhi, bhi⟩ := max_returns S hne
  obtain ⟨q1, med, q3, hq, b1, b2, b3, b4⟩ := quantile_ordered S lo hi h2 blo bhi
  exact ⟨lo, hi, q1, med, q3, _, hlo, hhi, hq, b1, b2, b3, b4⟩

/-! ## The rows of the table -/

/-- C15: on a sequence of length at least two `dispData` writes, after the
header unless it is suppressed, one data row: in compact mode the 6 fields
count, min, max, mean, stddev, stderr, in complete mode the 10 fields count,
min, q1, median, q3, max, sum, mean, stddev, stderr; the header names the same
fields in the same order (`N`, `min`, [`q1`, `med`, `q3`,] `max`, [`sum`,]
`avg`, `stddev`, `stderr`), so every row has 6, respectively 10, fields. -/
theorem dispData_fields (sqrt : ℚ → ℚ) (flags : Flags) (data : List ℚ)
    (h : 2 ≤ data.length) :
    ∃ q1 med q3 mn mx T, quantile data = .ok ((q1, med, q3), T) ∧
      min data = .ok mn ∧ max data = .ok mx ∧
      dispData sqrt flags data = .ok (
        (if flags.fNoHead then []
         else [if flags.fComplete then
             [Cell.str "N", .str "min", .str "q1", .str "med", .str "q3", .str "max",
              .str "sum", .str "avg", .str "stddev", .str "stderr"]
           else [Cell.str "N", .str "min", .str "max", .str "avg", .str "stddev",
              .str "stderr"]])
        ++ [if flags.fComplete then
             [Cell.int data.length, .num mn, .num q1, .num med, .num q3, .num mx,
              .num (sum data), .num (average data), .num (stddev sqrt data),
              .num (stderr sqrt data)]
           else [Cell.int data.length, .num mn, .num mx, .num (average data),
              .num (stddev sqrt data), .num (stderr sqrt data)]]) ∧
      ∀ rows, dispData sqrt flags data = .ok rows →
        ∀ row ∈ rows, row.length = if flags.fComplete then 10 else 6 := by
  obtain ⟨q1, med, q3, h1, h2, h3⟩ := quantile_medians data h
  have hq := quantile_eq data q1 med q3 h1 h2 h3
  have hne : data ≠ [] := by
    intro e
    rw [e] at h
    simp at h
  obtain ⟨mn, hmn, -⟩ := min_returns data hne
  obtain ⟨mx, hmx, -⟩ := max_returns data hne
  have hT := sortFloat64s_perm data
  have hmnT : min (sortFloat64s data) = .ok mn := by rw [min_perm data _ hT, hmn]
  have hmxT : max (sortFloat64s data) = .ok mx := by rw [max_perm data _ hT, hmx]
  have eL := sortFloat64s_length data
  have eS := sum_perm data _ hT
  have eA := average_perm data _ hT
  have eD := stddev_perm sqrt data _ hT
  have eE := stderr_perm sqrt data _ hT
  refine ⟨q1, med, q3, mn, mx, _, hq, hmn, hmx, ?_⟩
  cases hh : flags.fNoHead <;> cases hc : flags.fComplete <;>
    simp [dispData, hq, hmnT, hmxT, hh, hc, bind, Except.bind, pure, Except.pure,
      eL, eS, eA, eD, eE, headerComplete, headerCompact]

theorem dispData_fields_witness :
    2 ≤ ([2, 1] : List ℚ).length ∧
    ∀ rows, dispData id { fNoHead := false, fComplete := true, fStrict := false } [2, 1]
        = .ok rows →
      ∀ row ∈ rows, row.length
        = if ({ fNoHead := false, fComplete := true, fStrict := false } : Flags).fComplete
          then 10 else 6 := by
  obtain ⟨q1, med, q3, mn, mx, T, -, -, -, -, hrows⟩ :=
    dispData_fields id { fNoHead := false, fComplete := true, fStrict := false } [2, 1]
      (by decide)
  exact ⟨by decide, hrows⟩

/-! ## Statistics of the valid numbers -/

/-- On two or more values `dispData` returns the header, unless it is
suppressed, and one data row holding the statistics of the values. -/
theorem dispData_rows (sqrt : ℚ → ℚ) (flags : Flags) (data : List ℚ)
    (h : 2 ≤ data.length) :
    ∃ q1 med q3 mn mx T, quantile data = .ok ((q1, med, q3), T) ∧
      min data = .ok mn ∧ max data = .ok mx ∧
      dispData sqrt flags data = .ok (
        (if flags.fNoHead then []
         else [if flags.fComplete then headerComplete else headerCompact])
        ++ [if flags.fComplete then
             [Cell.int data.length, .num mn, .num q1, .num med, .num q3, .num mx,
              .num (sum data), .num (average data), .num (stddev sqrt data),
              .num (stderr sqrt data)]
           else [Cell.int data.length, .num mn, .num mx, .num (average data),
              .num (stddev sqrt data), .num (stderr sqrt data)]]) := by
  obtain ⟨q1, med, q3, h1, h2, h3⟩ := quantile_medians data h
  have hq := quantile_eq data q1 med q3 h1 h2 h3
  have hne : data ≠ [] := by
    intro e
    rw [e] at h
    simp at h
  obtain ⟨mn, hmn, -⟩ := min_returns data hne
  obtain ⟨mx, hmx, -⟩ := max_returns data hne
  have hT := sortFloat64s_perm data
  have hmnT : min (sortFloat64s data) = .ok mn := by rw [min_perm data _ hT, hmn]
  have hmxT : max (sortFloat64s data) = .ok mx := by rw [max_perm data _ hT, hmx]
  have eL := sortFloat64s_length data
  have eS := sum_perm data _ hT
  have eA := average_perm data _ hT
  have eD := stddev_perm sqrt data _ hT
  have eE := stderr_perm sqrt data _ hT
  refine ⟨q1, med, q3, mn, mx, _, hq, hmn, hmx, ?_⟩
  cases hh : flags.fNoHead <;> cases hc : flags.fComplete <;>
    simp [dispData, hq, hmnT, hmxT, hh, hc, bind, Except.bind, pure, Except.pure,
      eL, eS, eA, eD, eE]

/-- A non-strict run that opens every file and reads two or more numbers ends
normally: it writes its warnings, then the table whose data row holds the
statistics of exactly the numbers read. -/
theorem main_nonstrict_table (parse : String → Option ℚ) (sqrt : ℚ → ℚ) (env : Env)
    (h : env.flags.fStrict = false) (hopen : openFailure env = none)
    (h2 : 2 ≤ ((wordsRead env).filterMap parse).length) :
    ∃ q1 med q3 mn mx T,
      quantile ((wordsRead env).filterMap parse) = .ok ((q1, med, q3), T) ∧
      min ((wordsRead env).filterMap parse) = .ok mn ∧
      max ((wordsRead env).filterMap parse) = .ok mx ∧
      main parse sqrt env =
        { stdout := warnings parse (wordsRead env) ++ [.table (
            (if env.flags.fNoHead then []
             else [if env.flags.fComplete then headerComplete else headerCompact])
            ++ [if env.flags.fComplete then
                 [Cell.int ((wordsRead env).filterMap parse).length, .num mn, .num q1,
                  .num med, .num q3, .num mx,
                  .num (sum ((wordsRead env).filterMap parse)),
                  .num (average ((wordsRead env).filterMap parse)),
                  .num (stddev sqrt ((wordsRead env).filterMap parse)),
                  .num (stderr sqrt ((wordsRead env).filterMap parse))]
               else [Cell.int ((wordsRead env).filterMap parse).length, .num mn, .num mx,
                  .num (average ((wordsRead env).filterMap parse)),
                  .num (stddev sqrt ((wordsRead env).filterMap parse)),
                  .num (stderr sqrt ((wordsRead env).filterMap parse))]])],
          fatal := none } := by
  obtain ⟨q1, med, q3, mn, mx, T, hq, hmn, hmx, hd⟩ :=
    dispData_rows sqrt env.flags ((wordsRead env).filterMap parse) h2
  refine ⟨q1, med, q3, mn, mx, T, hq, hmn, hmx, ?_⟩
  rw [main_nonstrict parse sqrt env h, hopen]
  have hne : ¬ ((wordsRead env).filterMap parse).length = 0 := by omega
  simp only [hne, if_false, hd]

/-- C8 (fails on the code): on the words `1 abc` from standard input, in
non-strict mode, the scanner does not fail: it skips `abc` with a warning and
keeps the one valid number; but no statistics are computed over it: the run
ends in the index-out-of-range panic of `quantile` on a one-element slice (the
defect of C1), with only the warning written. -/
theorem skipped_word_single_number_panics (sqrt : ℚ → ℚ) (fNoHead fComplete : Bool)
    (fs : String → Option (List String)) :
    (scanNumbers parseSample false ["1", "abc"] { data := [], stdout := [] }).2 = none ∧
    (scanNumbers parseSample false ["1", "abc"] { data := [], stdout := [] }).1.data = [1] ∧
    main parseSample sqrt
        { flags := { fNoHead := fNoHead, fComplete := fComplete, fStrict := false },
          args := [], fs := fs, stdin := ["1", "abc"] }
      = { stdout := [Out.text "warning: invalid input abc\n"],
          fatal := some (.indexOutOfRange (-1) 0) } := by
  refine ⟨?_, ?_, ?_⟩
  · rw [scanNumbers_nonstrict]
  · rw [scanNumbers_nonstrict]
    simp [parseSample, List.filterMap_cons]
  · rw [main_nonstrict _ _ _ rfl]
    have hw : wordsRead
        { flags := { fNoHead := fNoHead, fComplete := fComplete, fStrict := false },
          args := [], fs := fs, stdin := ["1", "abc"] } = ["1", "abc"] := rfl
    have hD : (["1", "abc"] : List String).filterMap parseSample = [1] := by
      simp [parseSample, List.filterMap_cons]
    have hW : warnings parseSample ["1", "abc"]
        = [Out.text "warning: invalid input abc\n"] := by decide
    rw [hw, hD, hW, dispData_singleton]
    rfl

/-! ## The float64 arithmetic -/

theorem ilog2Aux_eq (fuel n acc : Nat) (h : n ≤ fuel) :
    ilog2Aux fuel n acc = acc + Nat.log 2 n := by
  induction fuel generalizing n acc with
  | zero =>
    have : n = 0 := by omega
    subst this
    simp [ilog2Aux]
  | succ fuel ih =>
    unfold ilog2Aux
    by_cases h2 : n < 2
    · rw [if_pos h2, Nat.log_of_lt h2]; rfl
    · have e : Nat.log 2 n = Nat.log 2 (n / 2) + 1 :=
        Nat.log_of_one_lt_of_le (by decide) (by omega)
      rw [if_neg h2, ih (n / 2) (acc + 1) (by omega), e]
      omega

/-- The helper `ilog2` is the floor of the binary logarithm. -/
theorem ilog2_spec (n : Nat) (h : 0 < n) :
    ilog2 n = Nat.log 2 n ∧ 2 ^ ilog2 n ≤ n ∧ n < 2 ^ (ilog2 n + 1) := by
  have e : ilog2 n = Nat.log 2 n := by
    rw [ilog2, ilog2Aux_eq n n 0 (le_refl n)]; simp
  rw [e]
  exact ⟨rfl, Nat.pow_log_le_self 2 (by omega), Nat.lt_pow_succ_log_self (by decide) n⟩

/-- The helper `roundHalfEven n d` is an integer nearest to `n / d`: it is within
one half of it. -/
theorem roundHalfEven_nearest (n d : Nat) (hd : 0 < d) :
    2 * (d * roundHalfEven n d) ≤ 2 * n + d ∧ 2 * n ≤ 2 * (d * roundHalfEven n d) + d := by
  have hdm := Nat.div_add_mod n d
  have hlt := Nat.mod_lt n hd
  have hs : d * (n / d + 1) = d * (n / d) + d := by ring
  unfold roundHalfEven
  split_ifs <;> (try rw [hs]) <;> omega

/-- An integer number of units below `2^53` is a float64: rounding leaves it as
it is. -/
theorem round53_exact (n : Nat) (h : n < 2 ^ 53) : round53 n 1 = n := by
  have h1 : n / 1 < 2 ^ 53 := by rw [Nat.div_one]; exact h
  unfold round53
  rw [if_pos h1]
  unfold roundHalfEven
  rw [Nat.mod_one, Nat.div_one, if_pos (by decide)]

/-! ## What the float64 code returns where the exact statements fail -/

/-- C6 (fails as stated): on the two finite float64 values `2^1023`, `2^1023`
the minimum and the maximum are `2^1023`, but the sum of the two central
elements overflows, so the median that `medSorted` returns for the sorted
slice is `+Inf`, which is not `<=` the maximum. -/
theorem median_exceeds_max_on_overflow :
    huge.isFinite = true ∧
    Float64.min [huge, huge] = .ok huge ∧ Float64.max [huge, huge] = .ok huge ∧
    Float64.sortFloat64s [huge, huge] = [huge, huge] ∧
    F64.add huge huge = .inf false ∧
    Float64.medSorted (Float64.sortFloat64s [huge, huge]) = .ok (.inf false) ∧
    F64.le (.inf false) huge = false := by
  decide!

/-- C17 (fails as stated): on the two finite float64 values `2^1023`, `2^1023`
`quantile` returns `q1 = 2^1023`, `median = +Inf`, `q3 = 2^1023`, and the
maximum is `2^1023`: neither `median <= q3` nor `median <= max` holds. -/
theorem quantiles_unordered_on_overflow :
    huge.isFinite = true ∧
    Float64.quantile [huge, huge] = .ok ((huge, .inf false, huge), [huge, huge]) ∧
    Float64.max [huge, huge] = .ok huge ∧
    F64.le (.inf false) huge = false := by
  decide!

/-- C19 (fails as stated): in float64 the variance of `0.1, 0.1, 0.1`, three
equal values, is `2^(-112)`, not zero (the mean `0.3 / 3` rounds to the float64
above `0.1`), and the variance of `0, 2^(-540)`, two different values, is zero
(the squared deviations `2^(-1082)` underflow to zero). -/
theorem variance_zero_iff_fails_in_float64 :
    tenth.isFinite = true ∧ tiny.isFinite = true ∧
    Float64.average [tenth, tenth, tenth]
      = .fin ((7205759403792795 * 2 ^ 1018 : Nat) : Int) ∧
    Float64.variance [tenth, tenth, tenth] = .fin ((2 ^ 962 : Nat) : Int) ∧
    Float64.variance [tenth, tenth, tenth] ≠ .fin 0 ∧
    Float64.variance [.fin 0, tiny] = .fin 0 ∧
    F64.fin 0 ≠ tiny := by
  decide!

/-! ## Rounding is monotone against float64 values -/

theorem roundHalfEven_ge (n d y : Nat) (hd : 0 < d) (h : y * d ≤ n) :
    y ≤ roundHalfEven n d := by
  have hy : y ≤ n / d := (Nat.le_div_iff_mul_le hd).2 h
  unfold roundHalfEven
  split_ifs <;> omega

theorem roundHalfEven_le (n d y : Nat) (hd : 0 < d) (h : n ≤ y * d) :
    roundHalfEven n d ≤ y := by
  have hdm := Nat.div_add_mod n d
  have hlt := Nat.mod_lt n hd
  have hq : n / d ≤ y := by
    have : n / d ≤ y * d / d := Nat.div_le_div_right h
    rwa [Nat.mul_div_cancel _ hd] at this
  have hstep : 0 < n % d → n / d + 1 ≤ y := by
    intro hr
    by_contra hc
    have hqy : n / d = y := by omega
    rw [hqy, Nat.mul_comm] at hdm
    omega
  unfold roundHalfEven
  split_ifs <;> first | exact hq | (apply hstep; omega)

/-- A magnitude that rounding leaves fixed is `m * 2^t` with `m < 2^53`. -/
theorem round53_fixed (x : Nat) (h : round53 x 1 = x) :
    ∃ m t, x = m * 2 ^ t ∧ m < 2 ^ 53 := by
  by_cases hx : x < 2 ^ 53
  · exact ⟨x, 0, by simp, hx⟩
  · have hxpos : 0 < x := by
      have : 0 < 2 ^ 53 := by positivity
      omega
    obtain ⟨-, hlo, hhi⟩ := ilog2_spec x hxpos
    have hp : 53 ≤ ilog2 x := by
      by_contra hc
      have : 2 ^ (ilog2 x + 1) ≤ 2 ^ 53 := Nat.pow_le_pow_right (by decide) (by omega)
      omega
    have hr : round53 x 1
        = roundHalfEven x (2 ^ (ilog2 x - 52)) * 2 ^ (ilog2 x - 52) := by
      unfold round53
      rw [Nat.div_one, if_neg hx, Nat.one_mul]
    have hsplit : 2 ^ (ilog2 x + 1) = 2 ^ 53 * 2 ^ (ilog2 x - 52) := by
      rw [← pow_add]; congr 1; omega
    have hdpos : 0 < 2 ^ (ilog2 x - 52) := by positivity
    have hle : roundHalfEven x (2 ^ (ilog2 x - 52)) ≤ 2 ^ 53 :=
      roundHalfEven_le x _ _ hdpos (by rw [← hsplit]; exact le_of_lt hhi)
    rcases Nat.lt_or_eq_of_le hle with hlt | heq
    · exact ⟨_, _, by rw [← hr, h], hlt⟩
    · refine ⟨2 ^ 52, ilog2 x - 52 + 1, ?_, by decide⟩
      have hx2 : x = 2 ^ 53 * 2 ^ (ilog2 x - 52) := by
        rw [← heq, ← hr, h]
      have e : (2 : Nat) ^ (ilog2 x - 52 + 1) = 2 ^ (ilog2 x - 52) * 2 := pow_succ _ _
      rw [e]
      generalize 2 ^ (ilog2 x - 52) = d at hx2 ⊢
      omega

/-- A float64 magnitude `m * 2^t` that reaches the binade of `q` is a multiple
of the spacing `2^(ilog2 q - 52)` of that binade. -/
theorem multiple_of_spacing (x p : Nat) (hx : ∃ m t, x = m * 2 ^ t ∧ m < 2 ^ 53)
    (hp : 2 ^ p ≤ x) : ∃ y, x = y * 2 ^ (p - 52) := by
  obtain ⟨m, t, rfl, hm⟩ := hx
  have ht : p - 52 ≤ t := by
    by_contra hc
    have h1 : m * 2 ^ t < 2 ^ 53 * 2 ^ t := Nat.mul_lt_mul_of_pos_right hm (by positivity)
    have h2 : 2 ^ 53 * 2 ^ t ≤ 2 ^ p := by
      rw [← pow_add]; exact Nat.pow_le_pow_right (by decide) (by omega)
    omega
  refine ⟨m * 2 ^ (t - (p - 52)), ?_⟩
  rw [Nat.mul_assoc, ← pow_add]
  congr 2
  omega

/-- Rounding does not go below a float64 magnitude that the value reaches. -/
theorem round53_ge (x n d : Nat) (hd : 0 < d) (hx : ∃ m t, x = m * 2 ^ t ∧ m < 2 ^ 53)
    (h : x * d ≤ n) : x ≤ round53 n d := by
  have hxq : x ≤ n / d := (Nat.le_div_iff_mul_le hd).2 h
  have hqd : n / d * d ≤ n := Nat.div_mul_le_self n d
  unfold round53
  by_cases hq : n / d < 2 ^ 53
  · rw [if_pos hq]; exact roundHalfEven_ge n d x hd h
  · rw [if_neg hq]
    have hqpos : 0 < n / d := lt_of_lt_of_le (by positivity) (not_lt.1 hq)
    obtain ⟨-, hlo, hhi⟩ := ilog2_spec (n / d) hqpos
    have hp : 53 ≤ ilog2 (n / d) := by
      by_contra hc
      have : 2 ^ (ilog2 (n / d) + 1) ≤ 2 ^ 53 := Nat.pow_le_pow_right (by decide) (by omega)
      omega
    have hsplit : 2 ^ ilog2 (n / d) = 2 ^ 52 * 2 ^ (ilog2 (n / d) - 52) := by
      rw [← pow_add]; congr 1; omega
    have hdp : 0 < 2 ^ (ilog2 (n / d) - 52) := by positivity
    have key : ∀ y, y * 2 ^ (ilog2 (n / d) - 52) ≤ n / d →
        y * 2 ^ (ilog2 (n / d) - 52)
          ≤ roundHalfEven n (d * 2 ^ (ilog2 (n / d) - 52)) * 2 ^ (ilog2 (n / d) - 52) := by
      intro y hy
      apply Nat.mul_le_mul_right
      apply roundHalfEven_ge n _ y (Nat.mul_pos hd hdp)
      calc y * (d * 2 ^ (ilog2 (n / d) - 52))
          = y * 2 ^ (ilog2 (n / d) - 52) * d := by ring
        _ ≤ n / d * d := Nat.mul_le_mul_right d hy
        _ ≤ n := hqd
    by_cases hxp : x < 2 ^ ilog2 (n / d)
    · have := key (2 ^ 52) (by rw [← hsplit]; exact hlo)
      rw [← hsplit] at this
      omega
    · obtain ⟨y, hy⟩ := multiple_of_spacing x (ilog2 (n / d)) hx (not_lt.1 hxp)
      have := key y (by rw [← hy]; exact hxq)
      rw [← hy] at this
      exact this

/-- Rounding does not go above a float64 magnitude that bounds the value. -/
theorem round53_le (x n d : Nat) (hd : 0 < d) (hx : ∃ m t, x = m * 2 ^ t ∧ m < 2 ^ 53)
    (h : n ≤ x * d) : round53 n d ≤ x := by
  have hqx : n / d ≤ x := by
    have : n / d ≤ x * d / d := Nat.div_le_div_right h
    rwa [Nat.mul_div_cancel _ hd] at this
  unfold round53
  by_cases hq : n / d < 2 ^ 53
  · rw [if_pos hq]; exact roundHalfEven_le n d x hd h
  · rw [if_neg hq]
    have hqpos : 0 < n / d := lt_of_lt_of_le (by positivity) (not_lt.1 hq)
    obtain ⟨-, hlo, hhi⟩ := ilog2_spec (n / d) hqpos
    have hp : 53 ≤ ilog2 (n / d) := by
      by_contra hc
      have : 2 ^ (ilog2 (n / d) + 1) ≤ 2 ^ 53 := Nat.pow_le_pow_right (by decide) (by omega)
      omega
    have hsplit : 2 ^ (ilog2 (n / d) + 1) = 2 ^ 53 * 2 ^ (ilog2 (n / d) - 52) := by
      rw [← pow_add]; congr 1; omega
    have hdp : 0 < 2 ^ (ilog2 (n / d) - 52) := by positivity
    have key : ∀ y, n ≤ y * 2 ^ (ilog2 (n / d) - 52) * d →
        roundHalfEven n (d * 2 ^ (ilog2 (n / d) - 52)) * 2 ^ (ilog2 (n / d) - 52)
          ≤ y * 2 ^ (ilog2 (n / d) - 52) := by
      intro y hy
      apply Nat.mul_le_mul_right
      apply roundHalfEven_le n _ y (Nat.mul_pos hd hdp)
      calc n ≤ y * 2 ^ (ilog2 (n / d) - 52) * d := hy
        _ = y * (d * 2 ^ (ilog2 (n / d) - 52)) := by ring
    by_cases hxp : x < 2 ^ (ilog2 (n / d) + 1)
    · obtain ⟨y, hy⟩ := multiple_of_spacing x (ilog2 (n / d)) hx (le_trans hlo hqx)
      have := key y (by rw [← hy]; exact h)
      rw [← hy] at this
      exact this
    · have hn : n ≤ 2 ^ 53 * 2 ^ (ilog2 (n / d) - 52) * d := by
        rw [← hsplit]
        have h1 : n < (n / d + 1) * d := by
          have := Nat.div_add_mod n d
          have := Nat.mod_lt n hd
          rw [Nat.add_mul, Nat.one_mul, Nat.mul_comm]
          omega
        have h2 : (n / d + 1) * d ≤ 2 ^ (ilog2 (n / d) + 1) * d :=
          Nat.mul_le_mul_right d hhi
        omega
      have := key (2 ^ 53) hn
      rw [← hsplit] at this
      omega

theorem double_fixed (x : Nat) (hx : ∃ m t, x = m * 2 ^ t ∧ m < 2 ^ 53) :
    ∃ m t, 2 * x = m * 2 ^ t ∧ m < 2 ^ 53 := by
  obtain ⟨m, t, rfl, hm⟩ := hx
  exact ⟨m, t + 1, by rw [pow_succ]; ring, hm⟩

/-- Half of the rounded sum of two float64 values `a ≤ b` of non-negative sum,
rounded, lies between them. -/
theorem half_sum_bounds (a b : Int) (ha : ∃ m t, a.natAbs = m * 2 ^ t ∧ m < 2 ^ 53)
    (hb : ∃ m t, b.natAbs = m * 2 ^ t ∧ m < 2 ^ 53) (hab : a ≤ b) (hs : 0 ≤ a + b) :
    a ≤ (round53 (round53 (a + b).natAbs 1 * 2 ^ 1074) (2 ^ 1075) : Int) ∧
    (round53 (round53 (a + b).natAbs 1 * 2 ^ 1074) (2 ^ 1075) : Int) ≤ b := by
  have hp : (2 : Nat) ^ 1075 = 2 * 2 ^ 1074 := by rw [pow_succ]; ring
  have hpos : 0 < (2 : Nat) ^ 1075 := by positivity
  have hS : (a + b).natAbs ≤ 2 * b.natAbs * 1 := by omega
  have hR := round53_le (2 * b.natAbs) (a + b).natAbs 1 (by decide) (double_fixed _ hb) hS
  have hM := round53_le b.natAbs (round53 (a + b).natAbs 1 * 2 ^ 1074) (2 ^ 1075) hpos hb
    (by rw [hp]
        calc round53 (a + b).natAbs 1 * 2 ^ 1074 ≤ 2 * b.natAbs * 2 ^ 1074 :=
              Nat.mul_le_mul_right _ hR
          _ = b.natAbs * (2 * 2 ^ 1074) := by ring)
  constructor
  · by_cases ha0 : a ≤ 0
    · have : (0 : Int) ≤ (round53 (round53 (a + b).natAbs 1 * 2 ^ 1074) (2 ^ 1075) : Int) :=
        Int.ofNat_nonneg _
      omega
    · have hS2 : 2 * a.natAbs * 1 ≤ (a + b).natAbs := by omega
      have hR2 := round53_ge (2 * a.natAbs) (a + b).natAbs 1 (by decide) (double_fixed _ ha) hS2
      have hM2 := round53_ge a.natAbs (round53 (a + b).natAbs 1 * 2 ^ 1074) (2 ^ 1075) hpos ha
        (by rw [hp]
            calc a.natAbs * (2 * 2 ^ 1074) = 2 * a.natAbs * 2 ^ 1074 := by ring
              _ ≤ round53 (a + b).natAbs 1 * 2 ^ 1074 := Nat.mul_le_mul_right _ hR2)
      omega
  · omega

theorem ofNat_two : F64.ofNat 2 = .fin ((2 ^ 1075 : Nat) : Int) := by decide!

theorem ofMag_cases (neg : Bool) (n d : Nat) :
    F64.ofMag neg n d = .inf neg ∨
    F64.ofMag neg n d = .fin (if neg then - (round53 n d : Int) else (round53 n d : Int)) := by
  unfold F64.ofMag
  by_cases h : maxFinite < round53 n d
  · left; rw [if_pos h]
  · right; rw [if_neg h]

theorem div_inf_fin (s : Bool) (k : Int) :
    F64.div (.inf s) (.fin k) = .inf (s != decide (k < 0)) := rfl

theorem div_fin_pos (r k : Int) (hk : 0 < k) :
    F64.div (.fin r) (.fin k)
      = F64.ofMag (decide (r < 0)) (r.natAbs * 2 ^ 1074) k.natAbs := by
  have hk0 : k ≠ 0 := by omega
  have hk1 : ¬ k < 0 := by omega
  simp only [F64.div, hk0, if_false, hk1, decide_False, Bool.bne_false]

/-- The float64 midpoint `(a + b) / 2` of two float64 values `a ≤ b`, when it
is finite, lies between them. -/
theorem midpoint_bounds (a b m : Int) (ha : ∃ m t, a.natAbs = m * 2 ^ t ∧ m < 2 ^ 53)
    (hb : ∃ m t, b.natAbs = m * 2 ^ t ∧ m < 2 ^ 53) (hab : a ≤ b)
    (h : F64.div (F64.add (.fin a) (.fin b)) (F64.ofNat 2) = .fin m) :
    a ≤ m ∧ m ≤ b := by
  have hK : (0 : Int) < ((2 ^ 1075 : Nat) : Int) := by
    apply Int.ofNat_pos.2
    positivity
  have hadd : F64.add (.fin a) (.fin b)
      = F64.ofMag (decide (a + b < 0)) (a + b).natAbs 1 := rfl
  rw [ofNat_two, hadd] at h
  rcases ofMag_cases (decide (a + b < 0)) (a + b).natAbs 1 with e | e
  · rw [e, div_inf_fin] at h
    cases h
  · rw [e, div_fin_pos _ _ hK, Int.natAbs_ofNat] at h
    by_cases hs : a + b < 0
    · -- the sum is negative: mirror the two values
      have hR1 : 1 ≤ round53 (a + b).natAbs 1 :=
        round53_ge 1 _ 1 (by decide) ⟨1, 0, by simp, by decide⟩ (by omega)
      have hneg : (-(round53 (a + b).natAbs 1 : Int)) < 0 := by omega
      simp only [hs, decide_True, if_true, hneg, Int.natAbs_neg, Int.natAbs_ofNat] at h
      rcases ofMag_cases true (round53 (a + b).natAbs 1 * 2 ^ 1074) (2 ^ 1075) with e2 | e2
      · rw [e2] at h
        exact absurd h (by simp)
      · rw [e2] at h
        have hm := F64.fin.inj h
        simp only [if_true] at hm
        have hb2 : ∃ m t, (-a).natAbs = m * 2 ^ t ∧ m < 2 ^ 53 := by rwa [Int.natAbs_neg]
        have ha2 : ∃ m t, (-b).natAbs = m * 2 ^ t ∧ m < 2 ^ 53 := by rwa [Int.natAbs_neg]
        have hbd := half_sum_bounds (-b) (-a) ha2 hb2 (by omega) (by omega)
        have e3 : (-b + -a).natAbs = (a + b).natAbs := by omega
        rw [e3] at hbd
        omega
    · have hnn : ¬ ((round53 (a + b).natAbs 1 : Int)) < 0 := by omega
      simp only [hs, decide_False, if_false, hnn, Int.natAbs_ofNat, Bool.false_eq_true] at h
      rcases ofMag_cases false (round53 (a + b).natAbs 1 * 2 ^ 1074) (2 ^ 1075) with e2 | e2
      · rw [e2] at h
        exact absurd h (by simp)
      · rw [e2] at h
        have hm := F64.fin.inj h
        simp only [if_false, Bool.false_eq_true] at hm
        have hbd := half_sum_bounds a b ha hb hab (by omega)
        omega

/-! ## The float64 aggregator on finite values -/

theorem medSorted64_odd (d : List F64) (x : F64) (hodd : d.length % 2 = 1)
    (hx : d[(d.length - 1) / 2]? = some x) : Float64.medSorted d = .ok x := by
  unfold Float64.medSorted len
  by_cases h1 : ((d.length : Int) = 1)
  · have h1n : d.length = 1 := by omega
    rw [if_pos h1]
    rw [h1n] at hx
    exact index_natCast d 0 x hx
  · rw [if_neg h1, tmod_two, if_pos (by omega)]
    have e : ((d.length : Int) - 1) = (((d.length - 1 : Nat)) : Int) := by omega
    rw [e, tdiv_two]
    exact index_natCast d _ x hx

theorem medSorted64_even (d : List F64) (a b : F64) (hpos : 0 < d.length)
    (heven : d.length % 2 = 0) (ha : d[d.length / 2 - 1]? = some a)
    (hb : d[d.length / 2]? = some b) :
    Float64.medSorted d = .ok (F64.div (F64.add a b) (F64.ofNat 2)) := by
  unfold Float64.medSorted len
  have h1 : ¬ ((d.length : Int) = 1) := by omega
  rw [if_neg h1, tmod_two, if_neg (by omega), tdiv_two]
  have e : (((d.length / 2 : Nat) : Int) - 1) = (((d.length / 2 - 1 : Nat)) : Int) := by omega
  rw [e, index_natCast d _ a ha, index_natCast d _ b hb]
  rfl

/-- In an ascending list of integers an element at a lower position is `≤` one
at a higher position. -/
theorem sorted_int_getElem_le (T : List Int) (hs : T.Sorted (· ≤ ·)) (i j : Nat) (a b : Int)
    (hij : i ≤ j) (ha : T[i]? = some a) (hb : T[j]? = some b) : a ≤ b := by
  rcases Nat.eq_or_lt_of_le hij with e | hlt
  · subst e
    rw [ha] at hb
    exact le_of_eq (Option.some.inj hb)
  · obtain ⟨hi, rfl⟩ := List.getElem?_eq_some.1 ha
    obtain ⟨hj, rfl⟩ := List.getElem?_eq_some.1 hb
    exact (List.pairwise_iff_getElem.1 hs) i j hi hj hlt

/-- The float64 median of an ascending slice of finite values, when it is
finite, lies between any two bounds of the elements. -/
theorem medSorted64_bounds (l : List Int) (lo hi : Int) (hpos : 0 < l.length)
    (hrep : ∀ k ∈ l, ∃ m t, k.natAbs = m * 2 ^ t ∧ m < 2 ^ 53)
    (hs : l.Sorted (· ≤ ·)) (hlo : ∀ x ∈ l, lo ≤ x) (hhi : ∀ x ∈ l, x ≤ hi) :
    ∃ med, Float64.medSorted (l.map F64.fin) = .ok med ∧
      ∀ m, med = .fin m → lo ≤ m ∧ m ≤ hi := by
  have hlen : (l.map F64.fin).length = l.length := List.length_map _ _
  rcases Nat.mod_two_eq_zero_or_one l.length with h | h
  · have h1 : l.length / 2 - 1 < l.length := by omega
    have h2 : l.length / 2 < l.length := by omega
    have e1 := List.getElem?_eq_getElem h1
    have e2 := List.getElem?_eq_getElem h2
    have m1 := List.getElem?_mem e1
    have m2 := List.getElem?_mem e2
    have hab := sorted_int_getElem_le l hs _ _ _ _ (Nat.sub_le _ 1) e1 e2
    refine ⟨_, medSorted64_even (l.map F64.fin) (.fin l[l.length / 2 - 1])
      (.fin l[l.length / 2]) (by omega) (by omega)
      (by rw [hlen, List.getElem?_map, e1]; rfl)
      (by rw [hlen, List.getElem?_map, e2]; rfl), ?_⟩
    intro m hm
    have := midpoint_bounds _ _ m (hrep _ m1) (hrep _ m2) hab hm
    have := hlo _ m1
    have := hhi _ m2
    omega
  · have h1 : (l.length - 1) / 2 < l.length := by omega
    have e1 := List.getElem?_eq_getElem h1
    have m1 := List.getElem?_mem e1
    refine ⟨_, medSorted64_odd (l.map F64.fin) (.fin l[(l.length - 1) / 2]) (by omega)
      (by rw [hlen, List.getElem?_map, e1]; rfl), ?_⟩
    intro m hm
    have e := F64.fin.inj hm
    have := hlo _ m1
    have := hhi _ m1
    omega

theorem orderedInsert_map_fin (a : Int) (t : List Int) :
    List.orderedInsert (fun x y => Float64.less y x = false) (F64.fin a) (t.map F64.fin)
      = (List.orderedInsert (· ≤ ·) a t).map F64.fin := by
  induction t with
  | nil => rfl
  | cons b t ih =>
    simp only [List.map_cons, List.orderedInsert]
    by_cases hab : a ≤ b
    · have hr : Float64.less (F64.fin b) (F64.fin a) = false := by
        simp [Float64.less, F64.lt, F64.isNaN, hab]
      rw [if_pos hr, if_pos hab]
      rfl
    · have hr : ¬ Float64.less (F64.fin b) (F64.fin a) = false := by
        simp [Float64.less, F64.lt, F64.isNaN]
        omega
      rw [if_neg hr, if_neg hab, ih]
      rfl

/-- Sorting finite float64 values sorts the integers that count their units. -/
theorem sortFloat64s_map_fin (l : List Int) :
    Float64.sortFloat64s (l.map F64.fin) = (l.insertionSort (· ≤ ·)).map F64.fin := by
  induction l with
  | nil => rfl
  | cons a t ih =>
    unfold Float64.sortFloat64s at ih ⊢
    simp only [List.map_cons, List.insertionSort]
    rw [ih, orderedInsert_map_fin]

theorem foldl_min64 (l : List Int) (x : Int) :
    ∃ lo, (l.map F64.fin).foldl (fun x r => if F64.gt x r then r else x) (.fin x) = .fin lo ∧
      lo ≤ x ∧ (∀ r ∈ l, lo ≤ r) ∧ (lo = x ∨ lo ∈ l) := by
  induction l generalizing x with
  | nil => exact ⟨x, rfl, le_refl _, by simp, Or.inl rfl⟩
  | cons a t ih =>
    simp only [List.map_cons, List.foldl_cons]
    by_cases hxa : a < x
    · have hg : F64.gt (.fin x) (.fin a) = true := by simp [F64.gt, F64.lt, hxa]
      rw [if_pos hg]
      obtain ⟨lo, e, h1, h2, h3⟩ := ih a
      refine ⟨lo, e, by omega, ?_, ?_⟩
      · intro r hr
        rcases List.mem_cons.1 hr with rfl | hr
        · exact h1
        · exact h2 r hr
      · rcases h3 with rfl | h3
        · exact Or.inr (List.mem_cons_self _ _)
        · exact Or.inr (List.mem_cons_of_mem _ h3)
    · have hg : ¬ F64.gt (.fin x) (.fin a) = true := by simp [F64.gt, F64.lt, hxa]
      rw [if_neg hg]
      obtain ⟨lo, e, h1, h2, h3⟩ := ih x
      refine ⟨lo, e, h1, ?_, ?_⟩
      · intro r hr
        rcases List.mem_cons.1 hr with rfl | hr
        · omega
        · exact h2 r hr
      · rcases h3 with rfl | h3
        · exact Or.inl rfl
        · exact Or.inr (List.mem_cons_of_mem _ h3)

theorem foldl_max64 (l : List Int) (x : Int) :
    ∃ hi, (l.map F64.fin).foldl (fun x r => if F64.lt x r then r else x) (.fin x) = .fin hi ∧
      x ≤ hi ∧ (∀ r ∈ l, r ≤ hi) ∧ (hi = x ∨ hi ∈ l) := by
  induction l generalizing x with
  | nil => exact ⟨x, rfl, le_refl _, by simp, Or.inl rfl⟩
  | cons a t ih =>
    simp only [List.map_cons, List.foldl_cons]
    by_cases hxa : x < a
    · have hg : F64.lt (.fin x) (.fin a) = true := by simp [F64.lt, hxa]
      rw [if_pos hg]
      obtain ⟨hi, e, h1, h2, h3⟩ := ih a
      refine ⟨hi, e, by omega, ?_, ?_⟩
      · intro r hr
        rcases List.mem_cons.1 hr with rfl | hr
        · exact h1
        · exact h2 r hr
      · rcases h3 with rfl | h3
        · exact Or.inr (List.mem_cons_self _ _)
        · exact Or.inr (List.mem_cons_of_mem _ h3)
    · have hg : ¬ F64.lt (.fin x) (.fin a) = true := by simp [F64.lt, hxa]
      rw [if_neg hg]
      obtain ⟨hi, e, h1, h2, h3⟩ := ih x
      refine ⟨hi, e, h1, ?_, ?_⟩
      · intro r hr
        rcases List.mem_cons.1 hr with rfl | hr
        · omega
        · exact h2 r hr
      · rcases h3 with rfl | h3
        · exact Or.inl rfl
        · exact Or.inr (List.mem_cons_of_mem _ h3)

/-- On a non-empty slice of finite values the float64 `min` returns the least
element. -/
theorem min64_least (l : List Int) (h : l ≠ []) :
    ∃ lo, Float64.min (l.map F64.fin) = .ok (.fin lo) ∧ lo ∈ l ∧ ∀ x ∈ l, lo ≤ x := by
  cases l with
  | nil => exact absurd rfl h
  | cons a t =>
    obtain ⟨lo, e, -, h2, h3⟩ := foldl_min64 (a :: t) a
    refine ⟨lo, ?_, ?_, h2⟩
    · simp only [Float64.min, index, List.map_cons, bind, Except.bind, pure, Except.pure]
      simp only [List.map_cons] at e
      simp [e]
    · rcases h3 with rfl | h3
      · exact List.mem_cons_self _ _
      · exact h3

/-- On a non-empty slice of finite values the float64 `max` returns the
greatest element. -/
theorem max64_greatest (l : List Int) (h : l ≠ []) :
    ∃ hi, Float64.max (l.map F64.fin) = .ok (.fin hi) ∧ hi ∈ l ∧ ∀ x ∈ l, x ≤ hi := by
  cases l with
  | nil => exact absurd rfl h
  | cons a t =>
    obtain ⟨hi, e, -, h2, h3⟩ := foldl_max64 (a :: t) a
    refine ⟨hi, ?_, ?_, h2⟩
    · simp only [Float64.max, index, List.map_cons, bind, Except.bind, pure, Except.pure]
      simp only [List.map_cons] at e
      simp [e]
    · rcases h3 with rfl | h3
      · exact List.mem_cons_self _ _
      · exact h3

/-- A slice of finite float64 values is the image of the list of the integers
that count their units, each a float64 magnitude. -/
theorem finite_slice (S : List F64) (hfin : ∀ x ∈ S, x.isFinite = true) :
    ∃ l : List Int, S = l.map F64.fin ∧
      ∀ k ∈ l, ∃ m t, k.natAbs = m * 2 ^ t ∧ m < 2 ^ 53 := by
  induction S with
  | nil => exact ⟨[], rfl, by simp⟩
  | cons x S ih =>
    obtain ⟨l, hl, hrep⟩ := ih (fun y hy => hfin y (List.mem_cons_of_mem _ hy))
    have hx := hfin x (List.mem_cons_self _ _)
    cases x with
    | fin k =>
      simp only [F64.isFinite, Bool.and_eq_true, decide_eq_true_eq] at hx
      refine ⟨k :: l, by rw [hl]; rfl, ?_⟩
      intro j hj
      rcases List.mem_cons.1 hj with rfl | hj
      · exact round53_fixed _ hx.1
      · exact hrep j hj
    | inf s => simp [F64.isFinite] at hx
    | nan => simp [F64.isFinite] at hx

theorem quantile64_eq (D : List F64) (q1 med q3 : F64)
    (h1 : Float64.medSorted ((Float64.sortFloat64s D).take
      ((Float64.sortFloat64s D).length / 2)) = .ok q1)
    (h2 : Float64.medSorted (Float64.sortFloat64s D) = .ok med)
    (h3 : Float64.medSorted ((Float64.sortFloat64s D).drop
      ((Float64.sortFloat64s D).length / 2)) = .ok q3) :
    Float64.quantile D = .ok ((q1, med, q3), Float64.sortFloat64s D) := by
  simp [Float64.quantile, h1, h2, h3, bind, Except.bind, pure, Except.pure]

/-- In float64, on a non-empty slice of finite values, the median lies between
the minimum and the maximum whenever it is finite, that is, unless the sum of
the two central elements overflows. -/
theorem median_bounds64 (D : List F64) (hne : D ≠ []) (hfin : ∀ x ∈ D, x.isFinite = true) :
    ∃ lo hi med, Float64.min D = .ok lo ∧ Float64.max D = .ok hi ∧
      Float64.medSorted (Float64.sortFloat64s D) = .ok med ∧
      ∀ m, med = .fin m → F64.le lo med = true ∧ F64.le med hi = true := by
  obtain ⟨l, rfl, hrep⟩ := finite_slice D hfin
  have hl : l ≠ [] := by
    intro e
    rw [e] at hne
    exact hne rfl
  obtain ⟨lo, hlo, -, blo⟩ := min64_least l hl
  obtain ⟨hi, hhi, -, bhi⟩ := max64_greatest l hl
  have hp := List.perm_insertionSort (· ≤ ·) l
  have hs := List.sorted_insertionSort (· ≤ ·) l
  have hpos : 0 < (l.insertionSort (· ≤ ·)).length := by
    rw [List.length_insertionSort]; exact List.length_pos.2 hl
  obtain ⟨med, hmed, hb⟩ := medSorted64_bounds (l.insertionSort (· ≤ ·)) lo hi hpos
    (fun k hk => hrep k (hp.mem_iff.1 hk)) hs
    (fun x hx => blo x (hp.mem_iff.1 hx)) (fun x hx => bhi x (hp.mem_iff.1 hx))
  refine ⟨.fin lo, .fin hi, med, hlo, hhi, by rw [sortFloat64s_map_fin]; exact hmed, ?_⟩
  intro m hm
  obtain ⟨h1, h2⟩ := hb m hm
  subst hm
  simp [F64.le, h1, h2]

/-- In float64, on a slice of two or more finite values, the three values that
`quantile` returns are ordered and lie between the minimum and the maximum
whenever all three are finite, that is, unless a sum of two central elements
overflows. -/
theorem quantile_ordered64 (D : List F64) (h2 : 2 ≤ D.length)
    (hfin : ∀ x ∈ D, x.isFinite = true) :
    ∃ lo hi q1 med q3 T, Float64.min D = .ok lo ∧ Float64.max D = .ok hi ∧
      Float64.quantile D = .ok ((q1, med, q3), T) ∧
      ∀ m1 m2 m3, q1 = .fin m1 → med = .fin m2 → q3 = .fin m3 →
        F64.le lo q1 = true ∧ F64.le q1 med = true ∧ F64.le med q3 = true ∧
        F64.le q3 hi = true := by
  obtain ⟨l, rfl, hrep⟩ := finite_slice D hfin
  rw [List.length_map] at h2
  have hl : l ≠ [] := by
    intro e
    rw [e] at h2
    simp at h2
  obtain ⟨lo, hlo, -, blo⟩ := min64_least l hl
  obtain ⟨hi, hhi, -, bhi⟩ := max64_greatest l hl
  have hp := List.perm_insertionSort (· ≤ ·) l
  have hs := List.sorted_insertionSort (· ≤ ·) l
  have hn := List.length_insertionSort (· ≤ ·) l
  have hrepT : ∀ k ∈ l.insertionSort (· ≤ ·), ∃ m t, k.natAbs = m * 2 ^ t ∧ m < 2 ^ 53 :=
    fun k hk => hrep k (hp.mem_iff.1 hk)
  have hk1 : l.length / 2 - 1 < (l.insertionSort (· ≤ ·)).length := by omega
  have hk2 : l.length / 2 < (l.insertionSort (· ≤ ·)).length := by omega
  have ea := List.getElem?_eq_getElem hk1
  have eb := List.getElem?_eq_getElem hk2
  have ma := List.getElem?_mem ea
  have mb := List.getElem?_mem eb
  have hab := sorted_int_getElem_le _ hs _ _ _ _ (Nat.sub_le _ 1) ea eb
  have hL : ∀ x ∈ (l.insertionSort (· ≤ ·)).take (l.length / 2),
      x ≤ (l.insertionSort (· ≤ ·))[l.length / 2 - 1] := by
    intro x hx
    obtain ⟨i, hi⟩ := List.mem_iff_getElem?.1 hx
    rw [List.getElem?_take] at hi
    by_cases hlt : i < l.length / 2
    · rw [if_pos hlt] at hi
      exact sorted_int_getElem_le _ hs i _ _ _ (by omega) hi ea
    · rw [if_neg hlt] at hi
      exact absurd hi (by simp)
  have hH : ∀ x ∈ (l.insertionSort (· ≤ ·)).drop (l.length / 2),
      (l.insertionSort (· ≤ ·))[l.length / 2] ≤ x := by
    intro x hx
    obtain ⟨j, hj⟩ := List.mem_iff_getElem?.1 hx
    rw [List.getElem?_drop] at hj
    exact sorted_int_getElem_le _ hs _ _ _ _ (Nat.le_add_right _ j) eb hj
  obtain ⟨q1, e1, b1⟩ := medSorted64_bounds ((l.insertionSort (· ≤ ·)).take (l.length / 2))
    lo _ (by rw [List.length_take, hn]; omega)
    (fun k hk => hrepT k (List.mem_of_mem_take hk))
    (List.Pairwise.sublist (List.take_sublist _ _) hs)
    (fun x hx => blo x (hp.mem_iff.1 (List.mem_of_mem_take hx))) hL
  obtain ⟨q3, e3, b3⟩ := medSorted64_bounds ((l.insertionSort (· ≤ ·)).drop (l.length / 2))
    _ hi (by rw [List.length_drop, hn]; omega)
    (fun k hk => hrepT k (List.mem_of_mem_drop hk))
    (List.Pairwise.sublist (List.drop_sublist _ _) hs) hH
    (fun x hx => bhi x (hp.mem_iff.1 (List.mem_of_mem_drop hx)))
  have hlenT : (Float64.sortFloat64s (l.map F64.fin)).length = l.length := by
    rw [sortFloat64s_map_fin, List.length_map, hn]
  have hmapT : ((l.insertionSort (· ≤ ·)).map F64.fin).length
      = (l.insertionSort (· ≤ ·)).length := List.length_map _ _
  have hmed : ∃ med, Float64.medSorted ((l.insertionSort (· ≤ ·)).map F64.fin) = .ok med ∧
      ∀ m, med = .fin m → (l.insertionSort (· ≤ ·))[l.length / 2 - 1] ≤ m ∧
        m ≤ (l.insertionSort (· ≤ ·))[l.length / 2] := by
    rcases Nat.mod_two_eq_zero_or_one l.length with hev | hodd
    · refine ⟨_, medSorted64_even _ (.fin _) (.fin _) (by rw [hmapT]; omega)
        (by rw [hmapT, hn]; exact hev)
        (by rw [hmapT, hn, List.getElem?_map, ea]; rfl)
        (by rw [hmapT, hn, List.getElem?_map, eb]; rfl), ?_⟩
      intro m hm
      exact midpoint_bounds _ _ m (hrepT _ ma) (hrepT _ mb) hab hm
    · have hmid : (l.length - 1) / 2 = l.length / 2 := by omega
      refine ⟨_, medSorted64_odd _ (.fin _) (by rw [hmapT, hn]; exact hodd)
        (by rw [hmapT, hn, hmid, List.getElem?_map, eb]; rfl), ?_⟩
      intro m hm
      have e := F64.fin.inj hm
      omega
  obtain ⟨med, em, bm⟩ := hmed
  refine ⟨.fin lo, .fin hi, q1, med, q3, _, hlo, hhi,
    quantile64_eq (l.map F64.fin) q1 med q3
      (by rw [hlenT, sortFloat64s_map_fin, ← List.map_take]; exact e1)
      (by rw [sortFloat64s_map_fin]; exact em)
      (by rw [hlenT, sortFloat64s_map_fin, ← List.map_drop]; exact e3), ?_⟩
  intro m1 m2 m3 h1 hm2 h3
  obtain ⟨c1, c2⟩ := b1 m1 h1
  obtain ⟨c3, c4⟩ := bm m2 hm2
  obtain ⟨c5, c6⟩ := b3 m3 h3
  subst h1 hm2 h3
  simp only [F64.le, decide_eq_true_eq]
  refine ⟨c1, ?_, ?_, c6⟩ <;> omega

/-! ## The float64 variance is not negative -/

theorem ofMag_not_nan (neg : Bool) (n d : Nat) : (F64.ofMag neg n d).isNaN = false := by
  unfold F64.ofMag
  split_ifs <;> rfl

theorem ofMag_nonneg (n d : Nat) : F64.le (.fin 0) (F64.ofMag false n d) = true := by
  unfold F64.ofMag
  by_cases h : maxFinite < round53 n d
  · simp [h, F64.le]
  · simp [h, F64.le]

theorem mul_self_nonneg64 (x : F64) (hx : x.isNaN = false) :
    F64.le (.fin 0) (F64.mul x x) = true := by
  cases x with
  | fin a => simp only [F64.mul, bne_self_eq_false]; exact ofMag_nonneg _ _
  | inf s => simp [F64.mul, F64.le]
  | nan => simp [F64.isNaN] at hx

theorem add_nonneg64 (x y : F64) (hx : F64.le (.fin 0) x = true)
    (hy : F64.le (.fin 0) y = true) : F64.le (.fin 0) (F64.add x y) = true := by
  cases x with
  | fin a =>
    cases y with
    | fin b =>
      simp only [F64.le, decide_eq_true_eq] at hx hy
      have hab : ¬ (a + b < 0) := by omega
      simp only [F64.add, F64.ofInt, hab, decide_False]
      exact ofMag_nonneg _ _
    | inf t => simpa [F64.add, F64.le] using hy
    | nan => simp [F64.le] at hy
  | inf s =>
    cases y with
    | fin b => simpa [F64.add, F64.le] using hx
    | inf t =>
      simp only [F64.le, Bool.not_eq_true'] at hx hy
      simp [F64.add, F64.le, hx, hy]
    | nan => simp [F64.le] at hy
  | nan => simp [F64.le] at hx

theorem add_fin_not_nan (x : F64) (r : Int) (hx : x.isNaN = false) :
    (F64.add x (.fin r)).isNaN = false := by
  cases x with
  | fin a =>
    simp only [F64.add, F64.ofInt]
    exact ofMag_not_nan _ _ _
  | inf s => rfl
  | nan => simp [F64.isNaN] at hx

theorem sub_fin_not_nan (r : Int) (avg : F64) (h : avg.isNaN = false) :
    (F64.sub (.fin r) avg).isNaN = false := by
  cases avg with
  | fin b =>
    simp only [F64.sub, F64.neg, F64.add, F64.ofInt]
    exact ofMag_not_nan _ _ _
  | inf s => rfl
  | nan => simp [F64.isNaN] at h

/-- From `2^53` units on, rounding gives a positive value at most twice the
value rounded. -/
theorem round53_bounds (q : Nat) (h53 : 2 ^ 53 ≤ q) :
    0 < round53 q 1 ∧ round53 q 1 ≤ 2 * q := by
  have hqpos : 0 < q := lt_of_lt_of_le (by positivity) h53
  obtain ⟨-, hlo, -⟩ := ilog2_spec q hqpos
  have hd : 2 ^ (ilog2 q - 52) ≤ q :=
    le_trans (Nat.pow_le_pow_right (by decide) (Nat.sub_le _ 52)) hlo
  have hdpos : 0 < 2 ^ (ilog2 q - 52) := by positivity
  obtain ⟨hn1, hn2⟩ := roundHalfEven_nearest q (2 ^ (ilog2 q - 52)) hdpos
  have hr : round53 q 1
      = 2 ^ (ilog2 q - 52) * roundHalfEven q (2 ^ (ilog2 q - 52)) := by
    unfold round53
    rw [Nat.div_one, if_neg (by omega), Nat.one_mul, Nat.mul_comm]
  rw [hr]
  generalize 2 ^ (ilog2 q - 52) * roundHalfEven q (2 ^ (ilog2 q - 52)) = m at hn1 hn2
  generalize 2 ^ (ilog2 q - 52) = d at hd hdpos hn1 hn2
  constructor <;> omega

theorem two_pow_1138_le_maxFinite : 2 * (2 ^ 63 * 2 ^ 1074) ≤ maxFinite := by
  have e1 : 2 * (2 ^ 63 * 2 ^ 1074) = 2 ^ 1138 := by
    rw [← pow_add, ← pow_succ']
  have e2 : (2 : Nat) ^ 1138 ≤ 2 ^ 52 * 2 ^ 2045 := by
    rw [← pow_add]
    apply Nat.pow_le_pow_right
    · decide
    · decide
  have e3 : (2 : Nat) ^ 52 ≤ 2 ^ 53 - 1 := by decide
  rw [e1, maxFinite]
  exact le_trans e2 (Nat.mul_le_mul_right _ e3)

/-- The conversion `float64(n)` of a positive `int` (below `2^63`) is a finite
positive value. -/
theorem ofNat_pos (n : Nat) (h0 : 0 < n) (h : n < 2 ^ 63) :
    ∃ k : Int, 0 < k ∧ F64.ofNat n = .fin k := by
  have h53 : (2 : Nat) ^ 53 ≤ 2 ^ 1074 := by
    apply Nat.pow_le_pow_right
    · decide
    · decide
  have hq1 : 2 ^ 1074 ≤ n * 2 ^ 1074 := Nat.le_mul_of_pos_left _ h0
  have hq2 : n * 2 ^ 1074 ≤ 2 ^ 63 * 2 ^ 1074 := Nat.mul_le_mul_right _ (le_of_lt h)
  obtain ⟨hpos, hle⟩ := round53_bounds (n * 2 ^ 1074) (le_trans h53 hq1)
  have hmax : ¬ maxFinite < round53 (n * 2 ^ 1074) 1 :=
    not_lt.2 (le_trans hle (le_trans (Nat.mul_le_mul_left 2 hq2) two_pow_1138_le_maxFinite))
  refine ⟨(round53 (n * 2 ^ 1074) 1 : Int), by exact_mod_cast hpos, ?_⟩
  simp only [F64.ofNat, F64.ofMag, hmax, if_false]
  rfl

theorem div_pos_not_nan (x : F64) (k : Int) (hk : 0 < k) (hx : x.isNaN = false) :
    (F64.div x (.fin k)).isNaN = false := by
  cases x with
  | fin a =>
    have hk0 : k ≠ 0 := by omega
    simp only [F64.div, hk0, if_false]
    exact ofMag_not_nan _ _ _
  | inf s => rfl
  | nan => simp [F64.isNaN] at hx

theorem div_pos_nonneg (x : F64) (k : Int) (hk : 0 < k) (hx : F64.le (.fin 0) x = true) :
    F64.le (.fin 0) (F64.div x (.fin k)) = true := by
  cases x with
  | fin a =>
    simp only [F64.le, decide_eq_true_eq] at hx
    have hk0 : k ≠ 0 := by omega
    have ha : ¬ a < 0 := by omega
    have hk1 : ¬ k < 0 := by omega
    simp only [F64.div, hk0, if_false, ha, hk1, decide_False, bne_self_eq_false]
    exact ofMag_nonneg _ _
  | inf s =>
    simp only [F64.le, Bool.not_eq_true'] at hx
    have hk1 : ¬ k < 0 := by omega
    simp [F64.div, F64.le, hx, hk1]
  | nan => simp [F64.le] at hx

theorem foldl_add_not_nan (S : List F64) (x : F64) (hx : x.isNaN = false)
    (hfin : ∀ y ∈ S, ∃ k, y = F64.fin k) :
    (S.foldl (fun x r => F64.add x r) x).isNaN = false := by
  induction S generalizing x with
  | nil => exact hx
  | cons a t ih =>
    obtain ⟨k, rfl⟩ := hfin _ (List.mem_cons_self _ _)
    exact ih _ (add_fin_not_nan x k hx) (fun y hy => hfin y (List.mem_cons_of_mem _ hy))

theorem foldl_sq_nonneg64 (S : List F64) (avg x : F64) (havg : avg.isNaN = false)
    (hx : F64.le (.fin 0) x = true) (hfin : ∀ y ∈ S, ∃ k, y = F64.fin k) :
    F64.le (.fin 0)
      (S.foldl (fun x r => F64.add x (F64.mul (F64.sub r avg) (F64.sub r avg))) x) = true := by
  induction S generalizing x with
  | nil => exact hx
  | cons a t ih =>
    obtain ⟨k, rfl⟩ := hfin _ (List.mem_cons_self _ _)
    exact ih _ (add_nonneg64 _ _ hx (mul_self_nonneg64 _ (sub_fin_not_nan k avg havg)))
      (fun y hy => hfin y (List.mem_cons_of_mem _ hy))

/-- The first part of C19 holds of the float64 code too: on a non-empty slice
of finite values (of a length an `int` can hold) `0 <= variance(S)`, and the
variance is never NaN. -/
theorem variance_nonneg64 (S : List F64) (hne : S ≠ []) (hlen : S.length < 2 ^ 63)
    (hfin : ∀ y ∈ S, ∃ k, y = F64.fin k) :
    F64.le (.fin 0) (Float64.variance S) = true := by
  obtain ⟨k, hk, hn⟩ := ofNat_pos S.length (List.length_pos.2 hne) hlen
  have hsum : (Float64.sum S).isNaN = false := foldl_add_not_nan S _ rfl hfin
  have havg : (Float64.average S).isNaN = false := by
    rw [Float64.average, hn]
    exact div_pos_not_nan _ k hk hsum
  rw [Float64.variance, hn]
  exact div_pos_nonneg _ k hk (foldl_sq_nonneg64 S _ _ havg (by simp [F64.le]) hfin)

/-! ## Median, quantiles and variance: exact arithmetic and float64 -/

/-- When the float64 `quantile` returns, its second result is the median of the
sorted slice. -/
theorem quantile64_median (D : List F64) (med : F64)
    (hmed : Float64.medSorted (Float64.sortFloat64s D) = .ok med)
    (q1 m q3 : F64) (T : List F64) (hq : Float64.quantile D = .ok ((q1, m, q3), T)) :
    m = med := by
  simp only [Float64.quantile, hmed, bind, Except.bind, pure, Except.pure] at hq
  split at hq
  · exact absurd hq (by simp)
  · split at hq
    · exact absurd hq (by simp)
    · simp only [Except.ok.injEq, Prod.mk.injEq] at hq
      exact hq.1.2.1.symm

/-- C6 (amended): on a non-empty sequence of finite numbers the median,
`medSorted` of the ascending sort (the second result of `quantile` whenever
`quantile` returns), satisfies `min(S) ≤ median(S) ≤ max(S)` in exact
arithmetic, and also as the float64 code computes it whenever the median
computed is finite (an infinite one arises when the sum of the two central
elements overflows). -/
theorem median_between_extremes (S : List ℚ) (hS : S ≠ []) (D : List F64) (hD : D ≠ [])
    (hfin : ∀ x ∈ D, x.isFinite = true) :
    (∃ lo hi med, min S = .ok lo ∧ max S = .ok hi ∧
      medSorted (sortFloat64s S) = .ok med ∧ lo ≤ med ∧ med ≤ hi ∧
      ∀ q1 m q3 T, quantile S = .ok ((q1, m, q3), T) → m = med) ∧
    (∃ lo hi med, Float64.min D = .ok lo ∧ Float64.max D = .ok hi ∧
      Float64.medSorted (Float64.sortFloat64s D) = .ok med ∧
      (∀ k, med = .fin k → F64.le lo med = true ∧ F64.le med hi = true) ∧
      ∀ q1 m q3 T, Float64.quantile D = .ok ((q1, m, q3), T) → m = med) := by
  refine ⟨min_le_median_le_max S hS, ?_⟩
  obtain ⟨lo, hi, med, h1, h2, h3, h4⟩ := median_bounds64 D hD hfin
  exact ⟨lo, hi, med, h1, h2, h3, h4, fun q1 m q3 T hq => quantile64_median D med h3 q1 m q3 T hq⟩

theorem median_between_extremes_witness :
    ([3, 1, 2] : List ℚ) ≠ [] ∧ [tenth, tiny, huge, tenth] ≠ [] ∧
    (∀ x ∈ [tenth, tiny, huge, tenth], x.isFinite = true) ∧
    Float64.medSorted (Float64.sortFloat64s [tenth, tiny, huge, tenth]) = .ok tenth ∧
    ∃ lo hi med, Float64.min [tenth, tiny, huge, tenth] = .ok lo ∧
      Float64.max [tenth, tiny, huge, tenth] = .ok hi ∧
      Float64.medSorted (Float64.sortFloat64s [tenth, tiny, huge, tenth]) = .ok med ∧
      (∀ k, med = .fin k → F64.le lo med = true ∧ F64.le med hi = true) ∧
      ∀ q1 m q3 T, Float64.quantile [tenth, tiny, huge, tenth] = .ok ((q1, m, q3), T) →
        m = med :=
  ⟨by simp, by simp, by decide!, by decide!,
    (median_between_extremes [3, 1, 2] (by simp) [tenth, tiny, huge, tenth] (by simp)
      (by decide!)).2⟩

/-- C17 (amended): on a sequence of length at least two of finite numbers the
three values that `quantile` returns are ordered and bounded by the extremes,
`min(S) ≤ q1 ≤ median ≤ q3 ≤ max(S)`, in exact arithmetic, and also as the
float64 code computes them whenever the three values are finite (an infinite
one arises when a sum of two central elements overflows). -/
theorem quantiles_ordered (S : List ℚ) (hS : 2 ≤ S.length) (D : List F64)
    (hD : 2 ≤ D.length) (hfin : ∀ x ∈ D, x.isFinite = true) :
    (∃ lo hi q1 med q3 T, min S = .ok lo ∧ max S = .ok hi ∧
      quantile S = .ok ((q1, med, q3), T) ∧
      lo ≤ q1 ∧ q1 ≤ med ∧ med ≤ q3 ∧ q3 ≤ hi) ∧
    (∃ lo hi q1 med q3 T, Float64.min D = .ok lo ∧ Float64.max D = .ok hi ∧
      Float64.quantile D = .ok ((q1, med, q3), T) ∧
      ∀ k1 k2 k3, q1 = .fin k1 → med = .fin k2 → q3 = .fin k3 →
        F64.le lo q1 = true ∧ F64.le q1 med = true ∧ F64.le med q3 = true ∧
        F64.le q3 hi = true) :=
  ⟨quantiles_between_extremes S hS, quantile_ordered64 D hD hfin⟩

theorem quantiles_ordered_witness :
    2 ≤ ([3, 1, 2] : List ℚ).length ∧ 2 ≤ [tenth, tiny, huge, tenth].length ∧
    (∀ x ∈ [tenth, tiny, huge, tenth], x.isFinite = true) ∧
    Float64.quantile [tenth, tiny, huge, tenth]
      = .ok ((.fin ((7205759403792794 * 2 ^ 1017 : Nat) : Int), tenth,
              .fin ((2 ^ 2096 : Nat) : Int)), [tiny, tenth, tenth, huge]) ∧
    ∃ lo hi q1 med q3 T, Float64.min [tenth, tiny, huge, tenth] = .ok lo ∧
      Float64.max [tenth, tiny, huge, tenth] = .ok hi ∧
      Float64.quantile [tenth, tiny, huge, tenth] = .ok ((q1, med, q3), T) ∧
      ∀ k1 k2 k3, q1 = .fin k1 → med = .fin k2 → q3 = .fin k3 →
        F64.le lo q1 = true ∧ F64.le q1 med = true ∧ F64.le med q3 = true ∧
        F64.le q3 hi = true :=
  ⟨by decide, by decide, by decide!, by decide!,
    (quantiles_ordered [3, 1, 2] (by decide) [tenth, tiny, huge, tenth] (by decide)
      (by decide!)).2⟩

/-- C19 (amended): on a non-empty sequence of finite numbers the variance is
non-negative, as the float64 code computes it (for a slice of a length an `int`
holds) and in exact arithmetic; in exact arithmetic it is zero exactly when all
the elements are equal. -/
theorem variance_nonneg_exact_zero_iff (S : List ℚ) (hS : S ≠ []) (D : List F64)
    (hD : D ≠ []) (hlen : D.length < 2 ^ 63) (hfin : ∀ x ∈ D, x.isFinite = true) :
    F64.le (.fin 0) (Float64.variance D) = true ∧
    0 ≤ variance S ∧ (variance S = 0 ↔ ∀ x ∈ S, ∀ y ∈ S, x = y) := by
  refine ⟨?_, variance_nonneg_zero_iff S hS⟩
  apply variance_nonneg64 D hD hlen
  intro y hy
  have h := hfin y hy
  cases y with
  | fin k => exact ⟨k, rfl⟩
  | inf s => simp [F64.isFinite] at h
  | nan => simp [F64.isFinite] at h

theorem variance_nonneg_exact_zero_iff_witness :
    ([2, 2] : List ℚ) ≠ [] ∧ [tenth, huge, tiny] ≠ [] ∧
    [tenth, huge, tiny].length < 2 ^ 63 ∧
    (∀ x ∈ [tenth, huge, tiny], x.isFinite = true) ∧
    F64.le (.fin 0) (Float64.variance [tenth, huge, tiny]) = true ∧
    0 ≤ variance [2, 2] ∧
    (variance [2, 2] = 0 ↔ ∀ x ∈ ([2, 2] : List ℚ), ∀ y ∈ ([2, 2] : List ℚ), x = y) :=
  ⟨by simp, by simp, by decide, by decide!,
    variance_nonneg_exact_zero_iff [2, 2] (by simp) [tenth, huge, tiny] (by simp) (by decide)
      (by decide!)⟩

end Gost
